import Mathlib

/-!
Verification of the FastGo routing and middleware-dispatch engine.

This file gives a shallow embedding of the core data structures and
operations of the FastGo repository and proves (or refutes) the frozen
claims about them:

* the segment trie of `router.go` (`routeNode`, `Insert`, `FindChild`,
  `splitPath`, `calculateMaxParams`) in namespace `FG`;
* the superseded router variant that carries `MergeRouter`
  (`part_005`) in namespace `P5`;
* the `Context` request state of `context.go` (`Reset`, `SetParam`),
  its write-once response discipline (`SetStatus`/`Write`), and the
  middleware dispatcher (`Next`/`Abort`).

Handler functions are opaque in Go; they are modelled by `Nat`
identifiers, so a Go `HandleFuncChain` becomes a `List Nat` and the
`nil`-slice / non-`nil`-slice distinction becomes `Option (List Nat)`.
Go strings are modelled by Lean `String` viewed as its list of
characters; the `':'`/`'*'` prefix tests of the router only ever
inspect ASCII bytes, where byte and character agree.
-/

/-- Association-list model of a Go `map[string]string`: assignment
`m[k] = v` overwrites the binding of `k` when present and otherwise
adds it. -/
def mapPut : List (String × String) → String → String → List (String × String)
  | [], k, v => [(k, v)]
  | (k', v') :: rest, k, v =>
      if k' = k then (k, v) :: rest else (k', v') :: mapPut rest k v

/-- Lookup in the association-list model of a Go map. -/
def mapGet (m : List (String × String)) (k : String) : Option String :=
  (m.find? (fun e => e.1 == k)).map (fun e => e.2)

/-- Go `strings.Trim(s, "/")`: remove leading and trailing `'/'`
characters. -/
def trimSlash (s : List Char) : List Char :=
  ((s.dropWhile (· == '/')).reverse.dropWhile (· == '/')).reverse

/-- `splitPath` from `router.go` (identical in `part_005`): the root
path `"/"` maps to no segments; otherwise slashes are trimmed from both
ends and the rest is split on `'/'` (Go `strings.Split`, which keeps
interior empty segments). -/
def splitPath (p : String) : List String :=
  if p = "/" then []
  else
    let t := trimSlash p.data
    if t = [] then []
    else (t.splitOn '/').map (fun cs => String.mk cs)

/-- The `nodeType` enumeration of `router.go`. -/
inductive nodeType where
  | static | root | param | catchAll
deriving DecidableEq, Repr

/-- The `routeNode` trie node of `router.go` (the same field set is
used by the `part_005` variant).  `Handlers` is `none` for a Go `nil`
chain.  `priority` is a `uint32` and `maxParams` a `uint8` in Go; they
are modelled as naturals kept below `2^32` resp. `256` by the wrapping
arithmetic of the operations that write them. -/
inductive routeNode where
  | mk (path : String) (indices : String) (children : List routeNode)
       (Handlers : Option (List Nat)) (priority : Nat) (nType : nodeType)
       (maxParams : Nat) (wildChild : Bool) (paramName : String)
deriving Repr

namespace routeNode

def path : routeNode → String
  | .mk p _ _ _ _ _ _ _ _ => p

def indices : routeNode → String
  | .mk _ i _ _ _ _ _ _ _ => i

def children : routeNode → List routeNode
  | .mk _ _ c _ _ _ _ _ _ => c

def Handlers : routeNode → Option (List Nat)
  | .mk _ _ _ h _ _ _ _ _ => h

def priority : routeNode → Nat
  | .mk _ _ _ _ pr _ _ _ _ => pr

def nType : routeNode → nodeType
  | .mk _ _ _ _ _ t _ _ _ => t

def maxParams : routeNode → Nat
  | .mk _ _ _ _ _ _ m _ _ => m

def wildChild : routeNode → Bool
  | .mk _ _ _ _ _ _ _ w _ => w

def paramName : routeNode → String
  | .mk _ _ _ _ _ _ _ _ n => n

/-- Copy a node with new children. -/
def withChildren : routeNode → List routeNode → routeNode
  | .mk p i _ h pr t m w n, c => .mk p i c h pr t m w n

/-- Copy a node with a new handler chain. -/
def withHandlers : routeNode → Option (List Nat) → routeNode
  | .mk p i c _ pr t m w n, h => .mk p i c h pr t m w n

/-- Copy a node with a new `maxParams` value. -/
def withMaxParams : routeNode → Nat → routeNode
  | .mk p i c h pr t _ w n, m => .mk p i c h pr t m w n

/-- Copy a node with a new `indices` string. -/
def withIndices : routeNode → String → routeNode
  | .mk p _ c h pr t m w n, i => .mk p i c h pr t m w n

@[simp] theorem path_mk (p i c h pr t m w n) :
    (routeNode.mk p i c h pr t m w n).path = p := rfl

@[simp] theorem indices_mk (p i c h pr t m w n) :
    (routeNode.mk p i c h pr t m w n).indices = i := rfl

@[simp] theorem children_mk (p i c h pr t m w n) :
    (routeNode.mk p i c h pr t m w n).children = c := rfl

@[simp] theorem Handlers_mk (p i c h pr t m w n) :
    (routeNode.mk p i c h pr t m w n).Handlers = h := rfl

@[simp] theorem priority_mk (p i c h pr t m w n) :
    (routeNode.mk p i c h pr t m w n).priority = pr := rfl

@[simp] theorem nType_mk (p i c h pr t m w n) :
    (routeNode.mk p i c h pr t m w n).nType = t := rfl

@[simp] theorem maxParams_mk (p i c h pr t m w n) :
    (routeNode.mk p i c h pr t m w n).maxParams = m := rfl

@[simp] theorem wildChild_mk (p i c h pr t m w n) :
    (routeNode.mk p i c h pr t m w n).wildChild = w := rfl

@[simp] theorem paramName_mk (p i c h pr t m w n) :
    (routeNode.mk p i c h pr t m w n).paramName = n := rfl

end routeNode

/-- Go `strings.Contains(s, c)` for a single-character needle:
membership of the character in the string. -/
def containsChar (s : String) (ch : Char) : Bool :=
  s.data.contains ch

/-- Go `strings.Contains(indices, part[0:1])` followed by
`indices += part[0:1]`: append the first character of a segment to the
index string unless it is already there ("修正：indices去重后拼接"). -/
def dedupAdd (s : String) (ch : Char) : String :=
  if containsChar s ch then s else s.push ch

namespace FG

open routeNode

mutual
/-- `calculateMaxParams` of `router.go`: a param or catch-all node
counts 1, plus the maximum over the children, as wrapping `uint8`
arithmetic. -/
def calculateMaxParams : routeNode → Nat
  | .mk _ _ children _ _ nt _ _ _ =>
      ((if nt = nodeType.param ∨ nt = nodeType.catchAll then 1 else 0) +
        maxChildParams 0 children) % 256

/-- The child loop of `calculateMaxParams`: running maximum of the
children's values, matching Go's `if childParams > maxChildParams`
update. -/
def maxChildParams (acc : Nat) : List routeNode → Nat
  | [] => acc
  | c :: cs =>
      maxChildParams
        (if calculateMaxParams c > acc then calculateMaxParams c else acc) cs
end

/-- Replace the first child whose `path` equals `part` (Go's
`for _, c := range current.children { if c.path == part … }` followed by
an update through the found pointer); `none` when no child matches. -/
def updateByPath : List routeNode → String → (routeNode → routeNode) →
    Option (List routeNode)
  | [], _, _ => none
  | c :: cs, part, f =>
      if c.path = part then some (f c :: cs)
      else (updateByPath cs part f).map (fun cs' => c :: cs')

/-- One descent step of `routeNode.Insert` from `router.go`, recursing
over the already-split segments.  The Go `break` in the `case '*':` arm
only leaves the `switch`, not the `for` loop, so after a catch-all
child is created the `current.maxParams` update runs on the catch-all
child itself (`current` has already moved) and the loop keeps
descending into it with the remaining segments. -/
def insertParts : routeNode → List String → List Nat → routeNode
  | cur, [], hs => cur.withHandlers (some hs)
  | cur, part :: rest, hs =>
    match part.data with
    | [] => insertParts cur rest hs
    | ch :: _ =>
      match updateByPath cur.children part (fun c => insertParts c rest hs) with
      | some cs' => (cur.withMaxParams (calculateMaxParams cur)).withChildren cs'
      | none =>
        if ch = ':' then
          let child : routeNode :=
            .mk part "" [] none ((cur.priority + 1) % 4294967296)
              nodeType.param 0 false (part.drop 1)
          let parent1 := (cur.withIndices (dedupAdd cur.indices ch)).withChildren
            (cur.children ++ [child])
          (parent1.withMaxParams (calculateMaxParams parent1)).withChildren
            (cur.children ++ [insertParts child rest hs])
        else if ch = '*' then
          let child : routeNode :=
            .mk part "" [] none ((cur.priority + 1) % 4294967296)
              nodeType.catchAll 0 true (part.drop 1)
          let child1 := child.withMaxParams (calculateMaxParams child)
          (cur.withIndices (dedupAdd cur.indices ch)).withChildren
            (cur.children ++ [insertParts child1 rest hs])
        else
          let child : routeNode :=
            .mk part "" [] none ((cur.priority + 1) % 4294967296)
              nodeType.static 0 false ""
          let parent1 := (cur.withIndices (dedupAdd cur.indices ch)).withChildren
            (cur.children ++ [child])
          (parent1.withMaxParams (calculateMaxParams parent1)).withChildren
            (cur.children ++ [insertParts child rest hs])

/-- `routeNode.Insert` from `router.go`. -/
def Insert (r : routeNode) (path : String) (hs : List Nat) : routeNode :=
  if path.length = 0 then r else insertParts r (splitPath path) hs

/-- `NewTire` from `router.go`: a fresh root node. -/
def NewTire : routeNode :=
  .mk "" "" [] none 0 nodeType.root 0 false ""

/-- The check after the matching loop of `FindChild`: a node with a
`nil` chain that is not a wildcard node is not a match
("node existence ≠ route existence"), but a wildcard node is returned
even without a chain. -/
def finish (c : routeNode) (ps : List (String × String)) :
    Option (routeNode × List (String × String)) :=
  if c.Handlers.isNone && !c.wildChild then none else some (c, ps)

/-- The matching loop of `routeNode.FindChild` from `router.go`:
per level, first an exact static scan over all children, then the first
`param` child (binding the segment verbatim), then the first wildcard
`catchAll` child, which binds the `/`-joined remainder (key `"*"` when
the declared name is empty) and stops the descent. -/
def findLoop : routeNode → List String → List (String × String) →
    Option (routeNode × List (String × String))
  | cur, [], ps => finish cur ps
  | cur, part :: rest, ps =>
    if part = "" then findLoop cur rest ps
    else if cur.children.isEmpty then none
    else
      match cur.children.find? (fun c => c.path == part) with
      | some c => findLoop c rest ps
      | none =>
        match cur.children.find? (fun c => c.nType == nodeType.param) with
        | some c => findLoop c rest (mapPut ps c.paramName part)
        | none =>
          match cur.children.find?
              (fun c => c.nType == nodeType.catchAll && c.wildChild) with
          | some c =>
            let nm := if c.paramName = "" then "*" else c.paramName
            finish c (mapPut ps nm (String.intercalate "/" (part :: rest)))
          | none => none

/-- `routeNode.FindChild` from `router.go`. -/
def FindChild (r : routeNode) (path : String) :
    Option (routeNode × List (String × String)) :=
  if path = "" then none else findLoop r (splitPath path) []

end FG

section UpdaterLemmas

open routeNode

@[simp] theorem path_withChildren (n : routeNode) (cs) :
    (n.withChildren cs).path = n.path := by cases n; rfl

@[simp] theorem children_withChildren (n : routeNode) (cs) :
    (n.withChildren cs).children = cs := by cases n; rfl

@[simp] theorem Handlers_withChildren (n : routeNode) (cs) :
    (n.withChildren cs).Handlers = n.Handlers := by cases n; rfl

@[simp] theorem nType_withChildren (n : routeNode) (cs) :
    (n.withChildren cs).nType = n.nType := by cases n; rfl

@[simp] theorem wildChild_withChildren (n : routeNode) (cs) :
    (n.withChildren cs).wildChild = n.wildChild := by cases n; rfl

@[simp] theorem paramName_withChildren (n : routeNode) (cs) :
    (n.withChildren cs).paramName = n.paramName := by cases n; rfl

@[simp] theorem indices_withChildren (n : routeNode) (cs) :
    (n.withChildren cs).indices = n.indices := by cases n; rfl

@[simp] theorem path_withHandlers (n : routeNode) (h) :
    (n.withHandlers h).path = n.path := by cases n; rfl

@[simp] theorem children_withHandlers (n : routeNode) (h) :
    (n.withHandlers h).children = n.children := by cases n; rfl

@[simp] theorem Handlers_withHandlers (n : routeNode) (h) :
    (n.withHandlers h).Handlers = h := by cases n; rfl

@[simp] theorem nType_withHandlers (n : routeNode) (h) :
    (n.withHandlers h).nType = n.nType := by cases n; rfl

@[simp] theorem wildChild_withHandlers (n : routeNode) (h) :
    (n.withHandlers h).wildChild = n.wildChild := by cases n; rfl

@[simp] theorem paramName_withHandlers (n : routeNode) (h) :
    (n.withHandlers h).paramName = n.paramName := by cases n; rfl

@[simp] theorem indices_withHandlers (n : routeNode) (h) :
    (n.withHandlers h).indices = n.indices := by cases n; rfl

@[simp] theorem path_withMaxParams (n : routeNode) (m) :
    (n.withMaxParams m).path = n.path := by cases n; rfl

@[simp] theorem children_withMaxParams (n : routeNode) (m) :
    (n.withMaxParams m).children = n.children := by cases n; rfl

@[simp] theorem Handlers_withMaxParams (n : routeNode) (m) :
    (n.withMaxParams m).Handlers = n.Handlers := by cases n; rfl

@[simp] theorem nType_withMaxParams (n : routeNode) (m) :
    (n.withMaxParams m).nType = n.nType := by cases n; rfl

@[simp] theorem wildChild_withMaxParams (n : routeNode) (m) :
    (n.withMaxParams m).wildChild = n.wildChild := by cases n; rfl

@[simp] theorem paramName_withMaxParams (n : routeNode) (m) :
    (n.withMaxParams m).paramName = n.paramName := by cases n; rfl

@[simp] theorem indices_withMaxParams (n : routeNode) (m) :
    (n.withMaxParams m).indices = n.indices := by cases n; rfl

@[simp] theorem path_withIndices (n : routeNode) (i) :
    (n.withIndices i).path = n.path := by cases n; rfl

@[simp] theorem children_withIndices (n : routeNode) (i) :
    (n.withIndices i).children = n.children := by cases n; rfl

@[simp] theorem Handlers_withIndices (n : routeNode) (i) :
    (n.withIndices i).Handlers = n.Handlers := by cases n; rfl

@[simp] theorem nType_withIndices (n : routeNode) (i) :
    (n.withIndices i).nType = n.nType := by cases n; rfl

@[simp] theorem wildChild_withIndices (n : routeNode) (i) :
    (n.withIndices i).wildChild = n.wildChild := by cases n; rfl

@[simp] theorem paramName_withIndices (n : routeNode) (i) :
    (n.withIndices i).paramName = n.paramName := by cases n; rfl

@[simp] theorem indices_withIndices (n : routeNode) (i) :
    (n.withIndices i).indices = i := by cases n; rfl

end UpdaterLemmas

section Sanity

example : splitPath "/files/a/b/c.txt" = ["files", "a", "b", "c.txt"] := by decide

example :
    (FG.FindChild (FG.Insert FG.NewTire "/files/*path" [1]) "/files/a/b/c.txt").map
      (fun r => (r.1.Handlers, r.2)) =
    some (some [1], [("path", "a/b/c.txt")]) := by decide

example :
    (FG.FindChild (FG.Insert (FG.Insert FG.NewTire "/users/:id" [2]) "/users/list" [1])
      "/users/list").map (fun r => (r.1.Handlers, r.2)) =
    some (some [1], []) := by decide

example :
    (FG.FindChild (FG.Insert FG.NewTire "/files/*path" [1]) "/files/*path/x").isNone = true := by
  decide

end Sanity

namespace FG

/-- The first static-scan phase of the matching loop finds the unique
child carrying the requested segment text when the children's texts are
pairwise distinct. -/
theorem find?_path_eq_of_mem (l : List routeNode) (c : routeNode) (part : String)
    (hnd : (l.map routeNode.path).Nodup) (hmem : c ∈ l) (hpath : c.path = part) :
    l.find? (fun x => x.path == part) = some c := by
  induction l with
  | nil => cases hmem
  | cons a as ih =>
    rcases List.mem_cons.1 hmem with rfl | hmem'
    · simp [List.find?, hpath]
    · have hne : a.path ≠ part := by
        intro h
        have : c.path ∈ as.map routeNode.path := List.mem_map_of_mem _ hmem'
        rw [hpath, ← h] at this
        exact (List.nodup_cons.1 hnd).1 this
      have hfind := ih (List.nodup_cons.1 hnd).2 hmem'
      have hbeq : (a.path == part) = false := beq_eq_false_iff_ne.mpr hne
      simp [List.find?, hbeq, hfind]

/-- A list on which `find?` succeeds is nonempty. -/
theorem isEmpty_false_of_find? {l : List routeNode} {p : routeNode → Bool}
    {c : routeNode} (h : l.find? p = some c) : l.isEmpty = false := by
  cases l with
  | nil => simp [List.find?] at h
  | cons a as => rfl

/-- Once the catch-all child is selected the matching loop returns it
together with the `/`-joined remainder, independently of every other
child: the three hypotheses say only that the static scan and the
param scan fail at this level. -/
theorem findLoop_catchAll (cur : routeNode) (part : String) (rest : List String)
    (ps : List (String × String)) (c : routeNode)
    (hpart : part ≠ "")
    (hstatic : ∀ x ∈ cur.children, x.path ≠ part)
    (hparam : ∀ x ∈ cur.children, x.nType ≠ nodeType.param)
    (hc : cur.children.find? (fun x => x.nType == nodeType.catchAll && x.wildChild) = some c) :
    findLoop cur (part :: rest) ps =
      some (c, mapPut ps (if c.paramName = "" then "*" else c.paramName)
        (String.intercalate "/" (part :: rest))) := by
  have hs : cur.children.find? (fun x => x.path == part) = none := by
    rw [List.find?_eq_none]
    intro x hx
    simpa using hstatic x hx
  have hp : cur.children.find? (fun x => x.nType == nodeType.param) = none := by
    rw [List.find?_eq_none]
    intro x hx
    simpa using hparam x hx
  have hwild : c.wildChild = true := by
    have hpred := List.find?_some hc
    rw [Bool.and_eq_true] at hpred
    exact hpred.2
  rw [findLoop, if_neg hpart, if_neg (by simp [isEmpty_false_of_find? hc]), hs, hp, hc]
  simp [finish, hwild]

end FG

theorem mapGet_mapPut (m : List (String × String)) (k v : String) :
    mapGet (mapPut m k v) k = some v := by
  induction m with
  | nil => simp [mapPut, mapGet, List.find?]
  | cons e rest ih =>
    by_cases h : e.1 = k
    · simp [mapPut, h, mapGet, List.find?]
    · have hbeq : (e.1 == k) = false := beq_eq_false_iff_ne.mpr h
      cases e with
      | mk k' v' =>
        simp only [mapPut, if_neg (by simpa using h), mapGet, List.find?] at *
        simpa [hbeq] using ih

/-- C1 (counterexample): the claim quantifies over *every* request path
that reaches the catch-all's level with unmatched segments, but when the
first unmatched segment is literally the declared text `*path`, the
exact static scan of `FindChild` consumes it via the catch-all node
itself, descends into its childless subtree and fails, so Match does
not succeed and nothing is bound.  The second conjunct shows the same
registration does match an ordinary path, so the route is live. -/
theorem c1_catchAll_literal_segment_counterexample :
    (FG.FindChild (FG.Insert FG.NewTire "/files/*path" [1]) "/files/*path/x").isNone = true
    ∧ (FG.FindChild (FG.Insert FG.NewTire "/files/*path" [1]) "/files/a/b/c.txt").isSome
        = true := by
  decide

/-- C1 (amended): at a trie level whose static scan fails on the first
unmatched segment (in particular that segment is not the literal
`*name` text) and which has no param child, the matching loop selects
the catch-all child `c` and returns it with `name` bound to the
`/`-joined remainder of all unmatched segments; the result is a
function of `c` and the remainder alone, so no sibling static or param
node is consulted once the catch-all child is chosen. -/
theorem c1_catchAll_binds_joined_remainder (cur : routeNode) (part : String)
    (rest : List String) (ps : List (String × String)) (c : routeNode)
    (hpart : part ≠ "")
    (hstatic : ∀ x ∈ cur.children, x.path ≠ part)
    (hparam : ∀ x ∈ cur.children, x.nType ≠ nodeType.param)
    (hc : cur.children.find? (fun x => x.nType == nodeType.catchAll && x.wildChild) = some c)
    (hname : c.paramName ≠ "") :
    FG.findLoop cur (part :: rest) ps =
      some (c, mapPut ps c.paramName (String.intercalate "/" (part :: rest)))
    ∧ mapGet (mapPut ps c.paramName (String.intercalate "/" (part :: rest))) c.paramName
        = some (String.intercalate "/" (part :: rest)) := by
  refine ⟨?_, mapGet_mapPut _ _ _⟩
  have h := FG.findLoop_catchAll cur part rest ps c hpart hstatic hparam hc
  rwa [if_neg hname] at h

/-- C1 witness: the spec's own example.  Registering GET
`"/files/*path"` and matching `"/files/a/b/c.txt"` yields the chain
`[1]` and `params{path: "a/b/c.txt"}`, obtained by applying the amended
theorem at the `files` node of the built tree. -/
theorem c1_catchAll_binds_joined_remainder_witness :
    ("a" : String) ≠ ""
    ∧ (FG.findLoop
        ((FG.Insert FG.NewTire "/files/*path" [1]).children.getD 0 FG.NewTire)
        ["a", "b", "c.txt"] []).map (fun r => (r.1.Handlers, r.2))
        = some (some [1], [("path", "a/b/c.txt")])
    ∧ (FG.FindChild (FG.Insert FG.NewTire "/files/*path" [1]) "/files/a/b/c.txt").map
        (fun r => (r.1.Handlers, r.2)) = some (some [1], [("path", "a/b/c.txt")]) := by
  refine ⟨by decide, ?_, ?_⟩
  · rw [(c1_catchAll_binds_joined_remainder
      ((FG.Insert FG.NewTire "/files/*path" [1]).children.getD 0 FG.NewTire)
      "a" ["b", "c.txt"] []
      (routeNode.mk "*path" "" [] (some [1]) 2 nodeType.catchAll 1 true "path")
      (by decide) (by decide) (by decide) (by rfl) (by decide)).1]
    rfl
  · rw [show FG.FindChild (FG.Insert FG.NewTire "/files/*path" [1]) "/files/a/b/c.txt"
        = FG.findLoop
            ((FG.Insert FG.NewTire "/files/*path" [1]).children.getD 0 FG.NewTire)
            ["a", "b", "c.txt"] [] from rfl]
    rw [(c1_catchAll_binds_joined_remainder
      ((FG.Insert FG.NewTire "/files/*path" [1]).children.getD 0 FG.NewTire)
      "a" ["b", "c.txt"] []
      (routeNode.mk "*path" "" [] (some [1]) 2 nodeType.catchAll 1 true "path")
      (by decide) (by decide) (by decide) (by rfl) (by decide)).1]
    rfl

/-- C2: at one trie level, (1) a segment equal to some child's full
text always resolves via that child with no parameter bound for the
segment, independent of where the child sits in the children list
(hence of insertion order); (2) the first param child is used only when
the static scan fails; (3) the catch-all child is used only when
additionally no param child exists at all. -/
theorem c2_static_param_catchAll_precedence :
    (∀ (cur : routeNode) (part : String) (rest : List String)
        (ps : List (String × String)) (c : routeNode),
        part ≠ "" → (cur.children.map routeNode.path).Nodup →
        c ∈ cur.children → c.path = part →
        FG.findLoop cur (part :: rest) ps = FG.findLoop c rest ps)
    ∧ (∀ (cur : routeNode) (part : String) (rest : List String)
        (ps : List (String × String)) (c : routeNode),
        part ≠ "" → (∀ x ∈ cur.children, x.path ≠ part) →
        cur.children.find? (fun x => x.nType == nodeType.param) = some c →
        FG.findLoop cur (part :: rest) ps = FG.findLoop c rest (mapPut ps c.paramName part))
    ∧ (∀ (cur : routeNode) (part : String) (rest : List String)
        (ps : List (String × String)) (c : routeNode),
        part ≠ "" → (∀ x ∈ cur.children, x.path ≠ part) →
        (∀ x ∈ cur.children, x.nType ≠ nodeType.param) →
        cur.children.find? (fun x => x.nType == nodeType.catchAll && x.wildChild) = some c →
        FG.findLoop cur (part :: rest) ps =
          some (c, mapPut ps (if c.paramName = "" then "*" else c.paramName)
            (String.intercalate "/" (part :: rest)))) := by
  refine ⟨?_, ?_, ?_⟩
  · intro cur part rest ps c hpart hnd hmem hpath
    have hfind := FG.find?_path_eq_of_mem cur.children c part hnd hmem hpath
    have hne : cur.children.isEmpty = false := FG.isEmpty_false_of_find? hfind
    rw [FG.findLoop, if_neg hpart, if_neg (by simp [hne]), hfind]
  · intro cur part rest ps c hpart hstatic hfind
    have hs : cur.children.find? (fun x => x.path == part) = none := by
      rw [List.find?_eq_none]; intro x hx; simpa using hstatic x hx
    have hne : cur.children.isEmpty = false := FG.isEmpty_false_of_find? hfind
    rw [FG.findLoop, if_neg hpart, if_neg (by simp [hne]), hs, hfind]
  · intro cur part rest ps c hpart hstatic hparam hfind
    exact FG.findLoop_catchAll cur part rest ps c hpart hstatic hparam hfind

/-- C2 witness: the spec's scenario with the adversarial insertion
order — `"/users/:id"` registered before `"/users/list"` — so the param
child precedes the static child in the children list; the request
segment `list` still resolves via the static child and the params list
stays empty. -/
theorem c2_static_param_catchAll_precedence_witness :
    ("list" : String) ≠ ""
    ∧ (FG.FindChild
        (FG.Insert (FG.Insert FG.NewTire "/users/:id" [2]) "/users/list" [1])
        "/users/list").map (fun r => (r.1.Handlers, r.2)) = some (some [1], []) := by
  refine ⟨by decide, ?_⟩
  rw [show FG.FindChild
        (FG.Insert (FG.Insert FG.NewTire "/users/:id" [2]) "/users/list" [1])
        "/users/list"
      = FG.findLoop
        ((FG.Insert (FG.Insert FG.NewTire "/users/:id" [2]) "/users/list" [1]).children.getD
          0 FG.NewTire) ["list"] [] from rfl]
  rw [c2_static_param_catchAll_precedence.1
    ((FG.Insert (FG.Insert FG.NewTire "/users/:id" [2]) "/users/list" [1]).children.getD
      0 FG.NewTire) "list" [] []
    (routeNode.mk "list" "" [] (some [1]) 2 nodeType.static 0 false "")
    (by decide) (by decide)
    (by
      rw [show ((FG.Insert (FG.Insert FG.NewTire "/users/:id" [2]) "/users/list" [1]).children.getD
          0 FG.NewTire).children
        = [routeNode.mk ":id" "" [] (some [2]) 2 nodeType.param 0 false "id",
           routeNode.mk "list" "" [] (some [1]) 2 nodeType.static 0 false ""] from rfl]
      exact List.mem_cons_of_mem _ (List.mem_cons_self _ _))
    rfl]
  rfl

/-- C10: when the registered catch-all segment is the bare `*`, the
declared parameter name is empty and `FindChild` falls back to the
literal key `"*"` for the `/`-joined remainder, which is then
retrievable under the name `"*"`. -/
theorem c10_bare_catchAll_binds_under_star (cur : routeNode) (part : String)
    (rest : List String) (ps : List (String × String)) (c : routeNode)
    (hpart : part ≠ "")
    (hstatic : ∀ x ∈ cur.children, x.path ≠ part)
    (hparam : ∀ x ∈ cur.children, x.nType ≠ nodeType.param)
    (hc : cur.children.find? (fun x => x.nType == nodeType.catchAll && x.wildChild) = some c)
    (hname : c.paramName = "") :
    FG.findLoop cur (part :: rest) ps =
      some (c, mapPut ps "*" (String.intercalate "/" (part :: rest)))
    ∧ mapGet (mapPut ps "*" (String.intercalate "/" (part :: rest))) "*"
        = some (String.intercalate "/" (part :: rest)) := by
  refine ⟨?_, mapGet_mapPut _ _ _⟩
  have h := FG.findLoop_catchAll cur part rest ps c hpart hstatic hparam hc
  rwa [if_pos hname] at h

/-- C10 witness: registering GET `"/files/*"` (bare star, produced by
`strings.TrimPrefix(part, "*") = ""`) and matching `"/files/a/b"` binds
the remainder `"a/b"` under the key `"*"`. -/
theorem c10_bare_catchAll_binds_under_star_witness :
    ("a" : String) ≠ ""
    ∧ (FG.FindChild (FG.Insert FG.NewTire "/files/*" [3]) "/files/a/b").map
        (fun r => (mapGet r.2 "*", r.1.Handlers)) = some (some "a/b", some [3]) := by
  refine ⟨by decide, ?_⟩
  rw [show FG.FindChild (FG.Insert FG.NewTire "/files/*" [3]) "/files/a/b"
      = FG.findLoop ((FG.Insert FG.NewTire "/files/*" [3]).children.getD 0 FG.NewTire)
        ["a", "b"] [] from rfl]
  rw [(c10_bare_catchAll_binds_under_star
    ((FG.Insert FG.NewTire "/files/*" [3]).children.getD 0 FG.NewTire)
    "a" ["b"] []
    (routeNode.mk "*" "" [] (some [3]) 2 nodeType.catchAll 1 true "")
    (by decide) (by decide) (by decide) (by rfl) (by decide)).1]
  rfl

/-- C3 (counterexample): `splitPath` runs `strings.Trim(path, "/")`,
which removes slashes from *both* ends, so `"/foo"` and `"/foo/"`
produce the identical segment sequence `["foo"]`, and registering
`"/foo"` makes Match succeed on `"/foo/"` — the claim's "distinct
segment sequences, not normalized" is false. -/
theorem c3_trailing_slash_counterexample :
    splitPath "/foo" = splitPath "/foo/"
    ∧ splitPath "/foo" = ["foo"]
    ∧ (FG.FindChild (FG.Insert FG.NewTire "/foo" [1]) "/foo/").map
        (fun r => (r.1.Handlers, r.2)) = some (some [1], []) := by
  decide

theorem trimSlash_append_slash (l : List Char) :
    trimSlash (l ++ ['/']) = trimSlash l := by
  unfold trimSlash
  rw [List.dropWhile_append]
  by_cases h : (l.dropWhile (· == '/')).isEmpty
  · have h0 : l.dropWhile (· == '/') = [] := by simpa [List.isEmpty_iff] using h
    rw [if_pos h, h0]
    rfl
  · rw [if_neg h, List.reverse_append]
    simp [List.dropWhile]

/-- C3 (amended): a path with a trailing slash is split into the same
segment sequence as the path without it, and consequently `FindChild`
treats the two alike on any tree (for nonempty paths; the empty path is
rejected up front). -/
theorem c3_trailing_slash_same_segments :
    (∀ s : String, splitPath (s ++ "/") = splitPath s)
    ∧ (∀ (t : routeNode) (s : String), s ≠ "" →
        FG.FindChild t (s ++ "/") = FG.FindChild t s) := by
  have hsplit : ∀ s : String, splitPath (s ++ "/") = splitPath s := by
    intro s
    by_cases hs : s = ""
    · subst hs; decide
    · by_cases hr : s = "/"
      · subst hr; decide
      · have hd : (s ++ "/").data = s.data ++ ['/'] := String.data_append s "/"
        have hne : s ++ "/" ≠ "/" := by
          intro h
          apply hs
          have : (s ++ "/").data = ['/'] := by rw [h]
          rw [hd] at this
          have hempty : s.data = [] := by
            rwa [List.append_left_eq_self] at this
          cases s
          simp_all [String.ext_iff]
        rw [splitPath, splitPath, if_neg hne, if_neg hr]
        simp only [hd, trimSlash_append_slash]
  refine ⟨hsplit, ?_⟩
  intro t s hs
  have hne2 : s ++ "/" ≠ "" := by
    intro h
    have : (s ++ "/").data = [] := by rw [h]
    rw [String.data_append] at this
    simp at this
  rw [FG.FindChild, FG.FindChild, if_neg hne2, if_neg hs, hsplit s]

/-- C3 witness: the amended equivalence applied at the registered tree
for `"/foo"` and the request `"/foo/"`. -/
theorem c3_trailing_slash_same_segments_witness :
    ("/foo" : String) ≠ ""
    ∧ FG.FindChild (FG.Insert FG.NewTire "/foo" [1]) ("/foo" ++ "/")
        = FG.FindChild (FG.Insert FG.NewTire "/foo" [1]) "/foo" := by
  exact ⟨by decide,
    c3_trailing_slash_same_segments.2 (FG.Insert FG.NewTire "/foo" [1]) "/foo" (by decide)⟩

/-- Tree used to exhibit the catch-all insertion slip: a route with
declared segments after the `*` segment. -/
def c4tree : routeNode := FG.Insert FG.NewTire "/files/*path/extra" [7]

/-- C4: the code's own comment says the catch-all arm "直接终止循环"
(directly terminates the loop), but the Go `break` only leaves the
`switch`, so inserting `"/files/*path/extra"` creates a static child
`extra` *below* the catch-all node and attaches the chain there, while
the catch-all node itself gets no chain — the descent does not
terminate at the catch-all node as the claim states. -/
theorem c4_insert_descends_past_catchAll :
    ((c4tree.children.getD 0 FG.NewTire).children.map routeNode.path = ["*path"])
    ∧ ((c4tree.children.getD 0 FG.NewTire).children.getD 0 FG.NewTire).nType
        = nodeType.catchAll
    ∧ ((c4tree.children.getD 0 FG.NewTire).children.getD 0 FG.NewTire).Handlers = none
    ∧ (((c4tree.children.getD 0 FG.NewTire).children.getD 0
          FG.NewTire).children.map routeNode.path = ["extra"])
    ∧ (((c4tree.children.getD 0 FG.NewTire).children.getD 0
          FG.NewTire).children.getD 0 FG.NewTire).Handlers = some [7] := by
  decide

/-- Tree used to exhibit duplicate param children: two param routes
with different names below the same parent. -/
def c5tree : routeNode := FG.Insert (FG.Insert FG.NewTire "/a/:id" [1]) "/a/:name" [2]

/-- C5 (counterexample): `Insert` looks an existing child up by its
*full* segment text, so `":id"` and `":name"` do not collide and the
node for `"a"` ends up with two param-kind children — the claimed
"at most one param-kind child" invariant fails. -/
theorem c5_two_param_children_counterexample :
    ((c5tree.children.getD 0 FG.NewTire).children.countP
        (fun c => c.nType == nodeType.param)) = 2
    ∧ ((c5tree.children.getD 0 FG.NewTire).children.map routeNode.path
        = [":id", ":name"]) := by
  decide

mutual
/-- All children of this node are pairwise distinct by full segment
text, recursively throughout the subtree. -/
def nodeOk : routeNode → Prop
  | .mk _ _ children _ _ _ _ _ _ =>
      (children.map routeNode.path).Nodup ∧ listOk children

/-- `nodeOk` for every node of a list. -/
def listOk : List routeNode → Prop
  | [] => True
  | c :: cs => nodeOk c ∧ listOk cs
end

theorem nodeOk_def (n : routeNode) :
    nodeOk n ↔ (n.children.map routeNode.path).Nodup ∧ listOk n.children := by
  cases n; exact Iff.rfl

theorem listOk_iff (l : List routeNode) : listOk l ↔ ∀ c ∈ l, nodeOk c := by
  induction l with
  | nil => simp [listOk]
  | cons c cs ih =>
    rw [listOk, ih]
    constructor
    · rintro ⟨h1, h2⟩ x hx
      rcases List.mem_cons.1 hx with rfl | hx'
      · exact h1
      · exact h2 x hx'
    · intro h
      exact ⟨h c (List.mem_cons_self _ _), fun x hx => h x (List.mem_cons_of_mem _ hx)⟩

theorem listOk_append (l m : List routeNode) :
    listOk (l ++ m) ↔ listOk l ∧ listOk m := by
  simp only [listOk_iff]
  constructor
  · intro h
    exact ⟨fun c hc => h c (List.mem_append_left _ hc),
           fun c hc => h c (List.mem_append_right _ hc)⟩
  · rintro ⟨h1, h2⟩ c hc
    rcases List.mem_append.1 hc with hc' | hc'
    · exact h1 c hc'
    · exact h2 c hc'

theorem updateByPath_none_iff (l : List routeNode) (part : String)
    (f : routeNode → routeNode) :
    FG.updateByPath l part f = none ↔ ∀ c ∈ l, c.path ≠ part := by
  induction l with
  | nil => simp [FG.updateByPath]
  | cons c cs ih =>
    rw [FG.updateByPath]
    by_cases h : c.path = part
    · simp [h]
    · rw [if_neg h]
      constructor
      · intro hmap x hx
        rcases List.mem_cons.1 hx with rfl | hx'
        · exact h
        · refine (ih.1 ?_) x hx'
          cases hcs : FG.updateByPath cs part f with
          | none => rfl
          | some v => rw [hcs] at hmap; simp at hmap
      · intro hall
        have h0 : FG.updateByPath cs part f = none :=
          ih.2 (fun x hx => hall x (List.mem_cons_of_mem _ hx))
        rw [h0]
        rfl

theorem updateByPath_some (l : List routeNode) (part : String)
    (f : routeNode → routeNode) (cs' : List routeNode)
    (h : FG.updateByPath l part f = some cs') :
    ∃ l1 c l2, l = l1 ++ c :: l2 ∧ (∀ x ∈ l1, x.path ≠ part) ∧ c.path = part
      ∧ cs' = l1 ++ f c :: l2 := by
  induction l generalizing cs' with
  | nil => simp [FG.updateByPath] at h
  | cons a as ih =>
    rw [FG.updateByPath] at h
    by_cases ha : a.path = part
    · rw [if_pos ha] at h
      exact ⟨[], a, as, by simp, by simp, ha, by simpa using h.symm⟩
    · rw [if_neg ha] at h
      rcases Option.map_eq_some'.1 h with ⟨bs, hbs, rfl⟩
      rcases ih bs hbs with ⟨l1, c, l2, hsplit, hl1, hc, hbs'⟩
      exact ⟨a :: l1, c, l2, by simp [hsplit], by
        intro x hx
        rcases List.mem_cons.1 hx with rfl | hx'
        · exact ha
        · exact hl1 x hx', hc, by simp [hbs']⟩

theorem insertParts_path (parts : List String) (cur : routeNode) (hs : List Nat) :
    (FG.insertParts cur parts hs).path = cur.path := by
  induction parts generalizing cur with
  | nil => simp [FG.insertParts]
  | cons part rest ih =>
    rw [FG.insertParts]
    rcases hdata : part.data with _ | ⟨ch, cs⟩
    · exact ih cur
    · cases hupd : FG.updateByPath cur.children part
          (fun c => FG.insertParts c rest hs) with
      | some cs' => simp
      | none =>
        by_cases h1 : ch = ':'
        · simp [h1]
        · by_cases h2 : ch = '*'
          · simp [h1, h2]
          · simp [h1, h2]

/-- `Insert` preserves the pairwise distinctness of children by full
segment text throughout the tree: the child lookup is by full text, so
a node is created only when no child with that text exists. -/
theorem insertParts_ok (parts : List String) (cur : routeNode) (hs : List Nat)
    (hok : nodeOk cur) : nodeOk (FG.insertParts cur parts hs) := by
  induction parts generalizing cur with
  | nil =>
    rw [FG.insertParts, nodeOk_def] at *
    simpa using hok
  | cons part rest ih =>
    rw [FG.insertParts]
    rcases hdata : part.data with _ | ⟨ch, cs⟩
    · exact ih cur hok
    · rw [nodeOk_def] at hok
      cases hupd : FG.updateByPath cur.children part
          (fun c => FG.insertParts c rest hs) with
      | some cs' =>
        rcases updateByPath_some _ _ _ _ hupd with ⟨l1, c, l2, hsplit, _, _, hcs'⟩
        rw [nodeOk_def]
        constructor
        · simp only [children_withChildren, hcs']
          have : (l1 ++ FG.insertParts c rest hs :: l2).map routeNode.path
              = (l1 ++ c :: l2).map routeNode.path := by
            simp [insertParts_path]
          rw [this, ← hsplit]
          exact hok.1
        · simp only [children_withChildren, hcs']
          have hl := hok.2
          rw [hsplit, listOk_append, listOk] at hl
          rw [listOk_append, listOk]
          exact ⟨hl.1, ih c hl.2.1, hl.2.2⟩
      | none =>
        have hnotin : part ∉ cur.children.map routeNode.path := by
          intro hmem
          rcases List.mem_map.1 hmem with ⟨x, hx, hxp⟩
          exact (updateByPath_none_iff _ _ _ |>.1 hupd) x hx hxp
        have hfresh : ∀ child : routeNode, child.children = [] → nodeOk child := by
          intro child hc
          rw [nodeOk_def, hc]
          exact ⟨List.nodup_nil, trivial⟩
        have key : ∀ child : routeNode, child.path = part → child.children = [] →
            ((cur.children ++ [FG.insertParts child rest hs]).map
              routeNode.path).Nodup
            ∧ listOk (cur.children ++ [FG.insertParts child rest hs]) := by
          intro child hp hc
          constructor
          · rw [List.map_append, List.nodup_append]
            refine ⟨hok.1, by simp, ?_⟩
            intro x hx
            simp only [List.map_cons, List.map_nil, List.mem_singleton,
              insertParts_path, hp]
            intro hx'
            rw [hx'] at hx
            exact hnotin hx
          · rw [listOk_append, listOk]
            exact ⟨hok.2, ih child (hfresh child hc), trivial⟩
        by_cases h1 : ch = ':'
        · simp only [if_pos h1]
          rw [nodeOk_def]
          simp only [children_withChildren]
          exact key _ (by simp) (by simp)
        · by_cases h2 : ch = '*'
          · simp only [if_neg h1, if_pos h2]
            rw [nodeOk_def]
            simp only [children_withChildren]
            exact key _ (by simp) (by simp)
          · simp only [if_neg h1, if_neg h2]
            rw [nodeOk_def]
            simp only [children_withChildren]
            exact key _ (by simp) (by simp)

/-- Build a tree by a sequence of `Insert` registrations. -/
def buildTree (regs : List (String × List Nat)) : routeNode :=
  regs.foldl (fun t r => FG.Insert t r.1 r.2) FG.NewTire

theorem insert_ok (t : routeNode) (p : String) (hs : List Nat) (h : nodeOk t) :
    nodeOk (FG.Insert t p hs) := by
  rw [FG.Insert]
  by_cases hp : p.length = 0
  · simpa [hp] using h
  · simpa [hp] using insertParts_ok (splitPath p) t hs h

/-- C5 (amended): after any sequence of `Insert` operations every node
of the resulting tree has children that are pairwise distinct by full
segment text (so in particular static children are unique by text and
no segment text is duplicated); the counterexample shows that the
stronger claimed bound — at most one param-kind and one catch-all-kind
child per node — does not hold, since differently named `:x`/`*x`
segments produce distinct texts of the same kind. -/
theorem c5_children_distinct_by_text (regs : List (String × List Nat)) :
    nodeOk (buildTree regs) := by
  have hgen : ∀ (rs : List (String × List Nat)) (t : routeNode), nodeOk t →
      nodeOk (rs.foldl (fun t r => FG.Insert t r.1 r.2) t) := by
    intro rs
    induction rs with
    | nil => intro t h; exact h
    | cons r rs' ih =>
      intro t h
      exact ih _ (insert_ok t r.1 r.2 h)
  exact hgen regs FG.NewTire (by rw [nodeOk_def]; exact ⟨List.nodup_nil, trivial⟩)

/-- The request data `Context.Reset` reads: `request.Method`,
`request.URL.Path`, `request.URL.Query()` and the `X-Request-Id`
header. -/
structure Request where
  method : String
  path : String
  query : List (String × String)
  xRequestId : String
deriving DecidableEq, Repr

/-- The mutable per-request state of `Context` from `context.go`,
restricted to the fields `Reset`, `SetParam` and the dispatch/response
logic touch.  `params` is the private `map[string]string` written by
`SetParam` (used by `router.go`'s `HandleHTTP` to bind route
parameters); `Params` is the public `Params` slice read by
`GetPathParam`.  The borrowed handles and the store hold opaque data,
modelled by `Nat` identifiers; `startTime` stands for the
`time.Now()` reading passed in by the caller of `Reset`. -/
structure Context where
  request : Request
  writer : Nat
  method : String
  path : String
  params : List (String × String)
  query : List (String × String)
  clientIP : String
  userAgent : String
  statusCode : Int
  headers : List (String × String)
  store : List (Nat × Nat)
  handlers : List Nat
  index : Int
  errors : List Nat
  aborted : Bool
  startTime : Nat
  requestID : String
  written : Bool
  Params : List (String × String)
deriving DecidableEq, Repr

/-- `NewContext` from `context.go`. -/
def NewContext (writer : Nat) (request : Request) : Context where
  request := request
  writer := writer
  method := ""
  path := ""
  params := []
  query := []
  clientIP := ""
  userAgent := ""
  statusCode := 0
  headers := []
  store := []
  handlers := []
  index := -1
  errors := []
  aborted := false
  startTime := 0
  requestID := ""
  written := false
  Params := []

/-- `Context.SetParam` from `context.go`: writes into the private
`params` map. -/
def SetParam (c : Context) (key value : String) : Context :=
  { c with params := mapPut c.params key value }

/-- Upsert into the association-list model of the `interface{}`-keyed
user store map (keys and values opaque, modelled by `Nat`). -/
def storePut : List (Nat × Nat) → Nat → Nat → List (Nat × Nat)
  | [], k, v => [(k, v)]
  | (k', v') :: rest, k, v =>
      if k' = k then (k, v) :: rest else (k', v') :: storePut rest k v

/-- `Context.Set` from `context.go`: `c.store[key] = value` under the
store mutex. -/
def CtxSet (c : Context) (key value : Nat) : Context :=
  { c with store := storePut c.store key value }

/-- `Context.Reset` from `context.go`, line for line: it repopulates
the request-derived fields, empties `headers`, `handlers`, `errors`,
the `Params` slice and the `store` (the `delete` loop under
`storeMutex`), and zeroes `index`, `aborted`, `written`, `statusCode`,
`clientIP`, `userAgent` — but never touches the private `params` map
that `SetParam` writes. -/
def Reset (c : Context) (writer : Nat) (request : Request) (now : Nat) : Context :=
  { c with
    request := request
    writer := writer
    method := request.method
    path := request.path
    requestID := request.xRequestId
    startTime := now
    clientIP := ""
    userAgent := ""
    query := request.query
    statusCode := 0
    headers := []
    handlers := []
    index := -1
    aborted := false
    written := false
    errors := []
    Params := []
    store := [] }

/-- First request of the C7 scenario: `GET /users/42` matching
`/users/:id`, so the dispatcher calls `SetParam("id", "42")`. -/
def c7req1 : Request := ⟨"GET", "/users/42", [], ""⟩

/-- Second request of the C7 scenario. -/
def c7req2 : Request := ⟨"GET", "/health", [], ""⟩

/-- The pooled context after serving the first request — during which
the dispatcher bound `id ↦ 42` via `SetParam` and a handler stored an
entry via `Context.Set` — and being `Reset` for the second. -/
def c7ctx : Context :=
  Reset (CtxSet (SetParam (Reset (NewContext 0 c7req1) 0 c7req1 0) "id" "42") 5 7)
    0 c7req2 1

/-- C7: `Reset` overwrites every request-derived field *except* the
private `params` map — the binding `id ↦ 42` made by `SetParam` while
serving the previous request survives the reset, contradicting the
claim that all path-parameter state is overwritten (the sibling
implementation `internal/mcontext` clears its `Params` map in `Reset`
via `ClearParams`, showing the intent).  The remaining conjuncts
confirm that every other listed field really is reset — in particular
the user-store entry written while serving the first request is
cleared by `Reset`'s `delete` loop. -/
theorem c7_reset_keeps_stale_param_map :
    c7ctx.params = [("id", "42")]
    ∧ mapGet c7ctx.params "id" = some "42"
    ∧ c7ctx.method = "GET" ∧ c7ctx.path = "/health"
    ∧ c7ctx.Params = [] ∧ c7ctx.index = -1 ∧ c7ctx.aborted = false
    ∧ c7ctx.written = false ∧ c7ctx.errors = [] ∧ c7ctx.headers = []
    ∧ c7ctx.handlers = [] ∧ c7ctx.store = [] ∧ c7ctx.statusCode = 0 := by
  decide

/-- A response-write operation of one request: `SetStatus` buffers a
status code, `Write` sends bytes. -/
inductive WOp where
  | setStatus (code : Int)
  | write (bs : List Nat)
deriving DecidableEq, Repr

/-- The response-side state of `Context` for C9, plus the wire:
`wireStatus` records the arguments of each `writer.WriteHeader` call in
order, `wireBody` the concatenation of all bytes passed to
`writer.Write`. -/
structure WCtx where
  statusCode : Int
  written : Bool
  wireStatus : List Int
  wireBody : List Nat
deriving DecidableEq, Repr

/-- `Context.SetStatus`: buffers the code only. -/
def SetStatus (c : WCtx) (code : Int) : WCtx := { c with statusCode := code }

/-- `Context.Write` from `context.go`: on the first call
(`!c.written`) it flushes the buffered status via
`writer.WriteHeader(c.statusCode)` and sets the flag; every call then
writes its body bytes. -/
def CWrite (c : WCtx) (bs : List Nat) : WCtx :=
  let c1 := if c.written then c
    else { c with wireStatus := c.wireStatus ++ [c.statusCode], written := true }
  { c1 with wireBody := c1.wireBody ++ bs }

/-- Response state at the start of a request (after `Reset`):
status 0, flag down, nothing on the wire. -/
def initW : WCtx := ⟨0, false, [], []⟩

/-- Run a sequence of response operations. -/
def runW (c : WCtx) : List WOp → WCtx
  | [] => c
  | .setStatus n :: r => runW (SetStatus c n) r
  | .write bs :: r => runW (CWrite c bs) r

/-- The status codes that reach the wire: exactly the buffered status
at the moment of the first `write`, nothing afterwards. -/
def statusFlushes (cur : Int) : List WOp → List Int
  | [] => []
  | .setStatus n :: r => statusFlushes n r
  | .write _ :: _ => [cur]

/-- All body bytes of a request in order. -/
def allBody : List WOp → List Nat
  | [] => []
  | .setStatus _ :: r => allBody r
  | .write bs :: r => bs ++ allBody r

/-- Whether the sequence contains a `write`. -/
def hasWrite (ops : List WOp) : Bool :=
  ops.any (fun o => match o with | .write _ => true | _ => false)

theorem runW_append (a b : List WOp) (c : WCtx) :
    runW c (a ++ b) = runW (runW c a) b := by
  induction a generalizing c with
  | nil => rfl
  | cons o r ih =>
    cases o with
    | setStatus n => simp [runW, ih]
    | write bs => simp [runW, ih]

theorem runW_written (ops : List WOp) (st : WCtx) (h : st.written = true) :
    (runW st ops).written = true
    ∧ (runW st ops).wireStatus = st.wireStatus
    ∧ (runW st ops).wireBody = st.wireBody ++ allBody ops := by
  induction ops generalizing st with
  | nil => simp [runW, allBody, h]
  | cons o r ih =>
    cases o with
    | setStatus n =>
      have := ih (SetStatus st n) (by simpa [SetStatus] using h)
      simpa [runW, SetStatus, allBody] using this
    | write bs =>
      have hthis := ih (CWrite st bs) (by simp [CWrite, h])
      refine ⟨?_, ?_, ?_⟩
      · rw [runW]; exact hthis.1
      · rw [runW, hthis.2.1]; simp [CWrite, h]
      · rw [runW, hthis.2.2]; simp [CWrite, h, allBody]

theorem runW_fresh (ops : List WOp) (st : WCtx) (h : st.written = false) :
    (runW st ops).wireStatus = st.wireStatus ++ statusFlushes st.statusCode ops
    ∧ (runW st ops).wireBody = st.wireBody ++ allBody ops
    ∧ (runW st ops).written = hasWrite ops := by
  induction ops generalizing st with
  | nil => simp [runW, statusFlushes, allBody, hasWrite, h]
  | cons o r ih =>
    cases o with
    | setStatus n =>
      have := ih (SetStatus st n) (by simpa [SetStatus] using h)
      simpa [runW, SetStatus, statusFlushes, allBody, hasWrite] using this
    | write bs =>
      have hw := runW_written r (CWrite st bs) (by simp [CWrite, h])
      refine ⟨?_, ?_, ?_⟩
      · rw [runW, hw.2.1]
        simp [CWrite, h, statusFlushes]
      · rw [runW, hw.2.2]
        simp [CWrite, h, allBody]
      · rw [runW]
        simp [hw.1, hasWrite]

/-- C9: over every sequence of status changes and body writes of one
request, (1) the wire sees exactly one status — the buffered value at
the moment of the first `Write` — and status changes after that flush
never reach the wire; (2) every `Write`, the first included, appends
its body bytes; (3) the write-once flag is set exactly when a `Write`
has happened, and (4) once set it stays set for the rest of the
request. -/
theorem c9_write_once_discipline (ops : List WOp) :
    (runW initW ops).wireStatus = statusFlushes 0 ops
    ∧ (runW initW ops).wireBody = allBody ops
    ∧ (runW initW ops).written = hasWrite ops
    ∧ ∀ i j : Nat, i ≤ j → (runW initW (ops.take i)).written = true →
        (runW initW (ops.take j)).written = true := by
  have base := runW_fresh ops initW rfl
  refine ⟨by simpa [initW] using base.1, by simpa [initW] using base.2.1,
    base.2.2, ?_⟩
  intro i j hij hw
  have hsplit : ops.take j = ops.take i ++ ((ops.drop i).take (j - i)) := by
    rw [← List.take_add ops i (j - i), Nat.add_sub_cancel' hij]
  rw [hsplit, runW_append]
  exact (runW_written _ _ hw).1

/-- What a handler does in the canonical middleware shape: wrap
(`callNext`), stop (`abortH`, modelling a handler that calls
`c.Abort()` and returns without calling `Next()`), or plain
(`pass`). -/
inductive HAct where
  | callNext | abortH | pass
deriving DecidableEq, Repr

/-- A deep-embedded handler: an identifier, observable actions before
its middle action (`pre`), the middle action itself, and observable
actions after it (`post`); for a `callNext` handler, `post` is its
post-`Next()` code. -/
structure Handler where
  id : Nat
  pre : List Nat
  act : HAct
  post : List Nat
deriving DecidableEq, Repr

/-- Observable events: a handler being invoked, or one of its logged
actions. -/
inductive Ev where
  | enter (id : Nat)
  | log (tag : Nat)
deriving DecidableEq, Repr

/-- The dispatch-relevant `Context` state: the handler chain set by
`SetHandles`, the cursor `index` (an `int` starting at −1), the
`aborted` flag, and the event trace of the request. -/
structure DCtx where
  handlers : List Handler
  index : Int
  aborted : Bool
  trace : List Ev
deriving DecidableEq, Repr

/-- Dummy handler for the (unreachable) out-of-bounds chain access. -/
def noHandler : Handler := ⟨0, [], HAct.pass, []⟩

mutual
/-- Run one handler body: record its invocation and `pre` actions,
perform its middle action (`callNext` re-enters `Next`, `abortH` sets
the one-way flag — the Go `Abort()` — after which the handler still
finishes its own body), then record its `post` actions. -/
def execHandler : Nat → Handler → DCtx → DCtx
  | 0, _, st => st
  | fuel + 1, h, st =>
    let st1 : DCtx :=
      { st with trace := st.trace ++ Ev.enter h.id :: h.pre.map Ev.log }
    let st2 : DCtx :=
      match h.act with
      | HAct.callNext => nextAux fuel st1
      | HAct.abortH => { st1 with aborted := true }
      | HAct.pass => st1
    { st2 with trace := st2.trace ++ h.post.map Ev.log }

/-- `Context.Next` from `context.go`: `c.index++` then the loop. -/
def nextAux : Nat → DCtx → DCtx
  | 0, st => st
  | fuel + 1, st => loopAux fuel { st with index := st.index + 1 }

/-- The loop of `Next`: while `c.index < len(c.handlers)`, return as
soon as `aborted` is set, otherwise invoke `handlers[index]` and
increment the cursor.  The cursor is never negative when the loop body
runs (it starts at −1 and `Next` pre-increments), and the chain is
fixed for the request, so the bounds-checked access is total. -/
def loopAux : Nat → DCtx → DCtx
  | 0, st => st
  | fuel + 1, st =>
    if st.index < (st.handlers.length : Int) then
      if st.aborted then st
      else if 0 ≤ st.index then
        let st' := execHandler fuel (st.handlers.getD st.index.toNat noHandler) st
        loopAux fuel { st' with index := st'.index + 1 }
      else st
    else st
end

/-- The entry glue of `core.ServeHTTP`: set the chain on a fresh
context and call `Next()`.  `fuel` bounds the re-entrance depth of
`Next`; any value ≥ 3·(chain length)+4 is enough for the runs below. -/
def dispatch (hs : List Handler) (fuel : Nat) : DCtx :=
  nextAux fuel { handlers := hs, index := -1, aborted := false, trace := [] }

/-- The events a handler contributes when it is invoked, before its
middle action. -/
def enterPre (h : Handler) : List Ev := Ev.enter h.id :: h.pre.map Ev.log

/-- The events of a handler's post-`Next` code. -/
def postLogs (h : Handler) : List Ev := h.post.map Ev.log

theorem nextAux_succ (f : Nat) (st : DCtx) :
    nextAux (f + 1) st = loopAux f { st with index := st.index + 1 } := rfl

theorem execHandler_succ (f : Nat) (h : Handler) (st : DCtx) :
    execHandler (f + 1) h st =
      (let st1 : DCtx :=
        { st with trace := st.trace ++ Ev.enter h.id :: h.pre.map Ev.log }
      let st2 : DCtx :=
        match h.act with
        | HAct.callNext => nextAux f st1
        | HAct.abortH => { st1 with aborted := true }
        | HAct.pass => st1
      { st2 with trace := st2.trace ++ h.post.map Ev.log }) := rfl

theorem loopAux_succ (f : Nat) (st : DCtx) :
    loopAux (f + 1) st =
      if st.index < (st.handlers.length : Int) then
        if st.aborted then st
        else if 0 ≤ st.index then
          loopAux f
            { execHandler f (st.handlers.getD st.index.toNat noHandler) st with
              index :=
                (execHandler f (st.handlers.getD st.index.toNat noHandler) st).index
                  + 1 }
        else st
      else st := rfl

theorem loopAux_of_aborted (f : Nat) (st : DCtx) (h : st.aborted = true)
    (hf : 1 ≤ f) : loopAux f st = st := by
  rw [show f = (f - 1) + 1 by omega, loopAux_succ]
  by_cases h1 : st.index < (st.handlers.length : Int)
  · simp [h1, h]
  · simp [h1]

theorem getD_append_length (pre l : List Handler) (d : Handler) :
    (pre ++ l).getD pre.length d = l.getD 0 d := by
  induction pre with
  | nil => rfl
  | cons a as ih => simpa using ih


theorem DCtx_eq (a b : DCtx) (h1 : a.handlers = b.handlers) (h2 : a.index = b.index)
    (h3 : a.aborted = b.aborted) (h4 : a.trace = b.trace) : a = b := by
  cases a; cases b; simp_all

theorem loopAux_abortedRecord (f : Nat) (P : List Handler) (idx : Int)
    (t : List Ev) (hf : 1 ≤ f) :
    loopAux f { handlers := P, index := idx, aborted := true, trace := t }
      = { handlers := P, index := idx, aborted := true, trace := t } := by
  rw [show f = (f - 1) + 1 by omega, loopAux_succ]
  by_cases h1 : idx < ((P.length : Nat) : Int)
  · simp [h1]
  · simp [h1]

theorem loopAux_stepRecord (f : Nat) (P : List Handler) (idx : Int) (t : List Ev)
    (hlt : idx < ((P.length : Nat) : Int)) (h0 : 0 ≤ idx) :
    loopAux (f + 1) { handlers := P, index := idx, aborted := false, trace := t }
      = loopAux f
          { handlers := (execHandler f (P.getD idx.toNat noHandler)
              { handlers := P, index := idx, aborted := false, trace := t }).handlers,
            index := (execHandler f (P.getD idx.toNat noHandler)
              { handlers := P, index := idx, aborted := false, trace := t }).index + 1,
            aborted := (execHandler f (P.getD idx.toNat noHandler)
              { handlers := P, index := idx, aborted := false, trace := t }).aborted,
            trace := (execHandler f (P.getD idx.toNat noHandler)
              { handlers := P, index := idx, aborted := false, trace := t }).trace } := by
  rw [loopAux_succ, if_pos hlt, if_neg (show ¬(false = true) from by decide), if_pos h0]

theorem execHandler_abortRecord (f : Nat) (h : Handler) (P : List Handler)
    (idx : Int) (t : List Ev) (hact : h.act = HAct.abortH) :
    execHandler (f + 1) h { handlers := P, index := idx, aborted := false, trace := t }
      = { handlers := P, index := idx, aborted := true,
          trace := (t ++ Ev.enter h.id :: h.pre.map Ev.log) ++ h.post.map Ev.log } := by
  rw [execHandler_succ, hact]

/-- The dispatch state just after a handler has recorded its
invocation and `pre` actions. -/
def afterEnter (h : Handler) (P : List Handler) (idx : Int) (t : List Ev) : DCtx :=
  { handlers := P, index := idx, aborted := false,
    trace := t ++ (Ev.enter h.id :: h.pre.map Ev.log) }

theorem execHandler_nextRecord (f : Nat) (h : Handler) (P : List Handler)
    (idx : Int) (t : List Ev) (hact : h.act = HAct.callNext) :
    execHandler (f + 1) h { handlers := P, index := idx, aborted := false, trace := t }
      = { handlers := (nextAux f (afterEnter h P idx t)).handlers,
          index := (nextAux f (afterEnter h P idx t)).index,
          aborted := (nextAux f (afterEnter h P idx t)).aborted,
          trace := (nextAux f (afterEnter h P idx t)).trace ++ h.post.map Ev.log } := by
  rw [execHandler_succ, hact]
  rfl

/-- Core dispatch run: from a cursor parked just before position
`pre.length` in the chain `pre ++ ws ++ hk :: tail`, where every
handler of `ws` is a wrapper that calls `Next()` and `hk` aborts
without calling `Next()`, `Next` runs exactly the wrappers and `hk`,
sets the abort flag, never reaches `tail`, and unwinds the wrappers'
post-`Next` actions in reverse order. -/
theorem nextAux_abort_run (ws : List Handler) (hk : Handler) :
    ∀ (pre tail P : List Handler) (idx : Int) (t : List Ev) (fuel : Nat),
    (∀ w ∈ ws, w.act = HAct.callNext) → hk.act = HAct.abortH →
    P = pre ++ ws ++ hk :: tail → idx = (pre.length : Int) - 1 →
    3 * ws.length + 4 ≤ fuel →
    nextAux fuel { handlers := P, index := idx, aborted := false, trace := t }
    = { handlers := P, index := idx + 2 * (ws.length : Int) + 2, aborted := true,
        trace := t ++ (ws.map enterPre).flatten ++ enterPre hk ++ postLogs hk
          ++ (ws.reverse.map postLogs).flatten } := by
  induction ws with
  | nil =>
    intro pre tail P idx t fuel _ hab hP hidx hfuel
    subst hP hidx
    rw [show fuel = (fuel - 1) + 1 by omega, nextAux_succ]
    simp only [sub_add_cancel]
    rw [show fuel - 1 = (fuel - 2) + 1 by omega]
    rw [loopAux_stepRecord (fuel - 2) _ _ _
      (by simp only [List.length_append, List.length_cons, List.length_nil]
          push_cast
          omega)
      (by omega)]
    have hget : (pre ++ [] ++ hk :: tail).getD ((pre.length : Int)).toNat noHandler
        = hk := by
      simp only [Int.toNat_natCast, List.append_nil]
      rw [getD_append_length]
      rfl
    rw [hget]
    rw [show fuel - 2 = (fuel - 3) + 1 by omega]
    rw [execHandler_abortRecord (fuel - 3) hk _ _ _ hab]
    rw [loopAux_abortedRecord _ _ _ _ (by omega)]
    refine DCtx_eq _ _ rfl ?_ rfl ?_
    · show ((pre.length : Int)) + 1 = ((pre.length : Int) - 1) + 2 * (0 : Int) + 2
      omega
    · show (t ++ Ev.enter hk.id :: hk.pre.map Ev.log) ++ hk.post.map Ev.log
        = t ++ (([] : List Handler).map enterPre).flatten ++ enterPre hk
            ++ postLogs hk ++ (([] : List Handler).reverse.map postLogs).flatten
      simp [enterPre, postLogs]
  | cons w rest ih =>
    intro pre tail P idx t fuel hws hab hP hidx hfuel
    subst hP hidx
    rw [show fuel = (fuel - 1) + 1 by omega, nextAux_succ]
    simp only [sub_add_cancel]
    rw [show fuel - 1 = (fuel - 2) + 1 by omega]
    rw [loopAux_stepRecord (fuel - 2) _ _ _
      (by simp only [List.length_append, List.length_cons]
          push_cast
          omega)
      (by omega)]
    have hget : (pre ++ (w :: rest) ++ hk :: tail).getD
        ((pre.length : Int)).toNat noHandler = w := by
      simp only [Int.toNat_natCast, List.append_assoc]
      rw [getD_append_length]
      rfl
    rw [hget]
    rw [show fuel - 2 = (fuel - 3) + 1 by omega]
    have hwact : w.act = HAct.callNext := hws w (List.mem_cons_self _ _)
    rw [execHandler_nextRecord (fuel - 3) w _ _ _ hwact]
    simp only [afterEnter]
    have ihape := ih (pre ++ [w]) tail
      (pre ++ (w :: rest) ++ hk :: tail) ((pre.length : Int))
      (t ++ Ev.enter w.id :: w.pre.map Ev.log) (fuel - 3)
      (fun x hx => hws x (List.mem_cons_of_mem _ hx)) hab
      (by simp)
      (by push_cast [List.length_append, List.length_cons, List.length_nil]; ring)
      (by simp only [List.length_cons] at hfuel; omega)
    rw [ihape]
    rw [loopAux_abortedRecord _ _ _ _ (by omega)]
    refine DCtx_eq _ _ rfl ?_ rfl ?_
    · show ((pre.length : Int) + 2 * (rest.length : Int) + 2) + 1
        = ((pre.length : Int) - 1) + 2 * (((w :: rest).length : Nat) : Int) + 2
      push_cast [List.length_cons]
      ring
    · show ((t ++ Ev.enter w.id :: w.pre.map Ev.log)
          ++ (rest.map enterPre).flatten ++ enterPre hk ++ postLogs hk
          ++ (rest.reverse.map postLogs).flatten) ++ w.post.map Ev.log
        = t ++ ((w :: rest).map enterPre).flatten ++ enterPre hk
            ++ postLogs hk ++ ((w :: rest).reverse.map postLogs).flatten
      simp [enterPre, postLogs, List.append_assoc]

/-- C8: in a chain whose first `k−1` handlers are wrappers that call
`Next()` and whose `k`-th handler calls `Abort()` and returns without
calling `Next()`, dispatching via `Next()` (1) runs exactly the
wrappers' entry actions in order, then the aborting handler, and then
the wrappers' post-`Next()` actions in reverse call order as the nested
`Next()` calls unwind, ending with the abort flag set; and (2) never
invokes any handler after the aborting one. -/
theorem c8_abort_skips_rest_and_unwinds (ws : List Handler) (hk : Handler)
    (tail : List Handler) (fuel : Nat)
    (hws : ∀ w ∈ ws, w.act = HAct.callNext) (hab : hk.act = HAct.abortH)
    (hfuel : 3 * ws.length + 4 ≤ fuel) :
    dispatch (ws ++ hk :: tail) fuel
      = { handlers := ws ++ hk :: tail, index := 2 * (ws.length : Int) + 1,
          aborted := true,
          trace := (ws.map enterPre).flatten ++ enterPre hk ++ postLogs hk
            ++ (ws.reverse.map postLogs).flatten }
    ∧ ∀ h ∈ tail, h.id ∉ ws.map Handler.id → h.id ≠ hk.id →
        Ev.enter h.id ∉ (dispatch (ws ++ hk :: tail) fuel).trace := by
  have hmain := nextAux_abort_run ws hk [] tail (ws ++ hk :: tail) (-1) [] fuel
    hws hab (by simp) (by norm_num) hfuel
  have hdisp : dispatch (ws ++ hk :: tail) fuel
      = { handlers := ws ++ hk :: tail, index := 2 * (ws.length : Int) + 1,
          aborted := true,
          trace := (ws.map enterPre).flatten ++ enterPre hk ++ postLogs hk
            ++ (ws.reverse.map postLogs).flatten } := by
    rw [dispatch, hmain]
    refine DCtx_eq _ _ rfl (by ring) rfl (by simp)
  refine ⟨hdisp, ?_⟩
  have enter_mem_enterPre : ∀ (n : Nat) (w : Handler),
      Ev.enter n ∈ enterPre w ↔ n = w.id := by
    intro n w
    simp [enterPre]
  have enter_not_mem_postLogs : ∀ (n : Nat) (w : Handler),
      Ev.enter n ∉ postLogs w := by
    intro n w
    simp [postLogs]
  have enter_not_mem_postFlatten : ∀ (n : Nat) (l : List Handler),
      Ev.enter n ∉ (l.map postLogs).flatten := by
    intro n l
    simp [List.mem_flatten, postLogs]
  intro h hmem hnotws hnothk hin
  rw [hdisp] at hin
  simp only [List.mem_append] at hin
  rcases hin with ((h1 | h2) | h3) | h4
  · simp only [List.mem_flatten, List.mem_map] at h1
    rcases h1 with ⟨l, ⟨w', hw', rfl⟩, hmem'⟩
    rw [enter_mem_enterPre] at hmem'
    exact hnotws (List.mem_map.2 ⟨w', hw', hmem'.symm⟩)
  · exact hnothk ((enter_mem_enterPre _ _).1 h2)
  · exact enter_not_mem_postLogs _ _ h3
  · exact enter_not_mem_postFlatten _ _ (by simpa using h4)

/-- Wrapper middleware of the C8 witness run. -/
def c8w1 : Handler := ⟨1, [10], HAct.callNext, [11]⟩

/-- Aborting handler of the C8 witness run. -/
def c8hk : Handler := ⟨2, [20], HAct.abortH, [21]⟩

/-- Never-reached trailing handler of the C8 witness run. -/
def c8h3 : Handler := ⟨3, [30], HAct.pass, [31]⟩

/-- C8 witness: chain `[wrapper, aborter, tail]` — the trace is
`enter 1, pre 1, enter 2, pre 2, post 2, post 1`, handler 3 is never
entered, and the abort flag ends up set. -/
theorem c8_abort_skips_rest_and_unwinds_witness :
    (∀ w ∈ [c8w1], w.act = HAct.callNext)
    ∧ c8hk.act = HAct.abortH
    ∧ 3 * [c8w1].length + 4 ≤ 20
    ∧ dispatch ([c8w1] ++ c8hk :: [c8h3]) 20
        = { handlers := [c8w1] ++ c8hk :: [c8h3], index := 3, aborted := true,
            trace := [Ev.enter 1, Ev.log 10, Ev.enter 2, Ev.log 20, Ev.log 21,
              Ev.log 11] }
    ∧ Ev.enter 3 ∉ (dispatch ([c8w1] ++ c8hk :: [c8h3]) 20).trace := by
  refine ⟨by decide, by decide, by decide, ?_, ?_⟩
  · rw [(c8_abort_skips_rest_and_unwinds [c8w1] c8hk [c8h3] 20 (by decide)
      (by decide) (by decide)).1]
    decide
  · intro hin
    exact (c8_abort_skips_rest_and_unwinds [c8w1] c8hk [c8h3] 20 (by decide)
      (by decide) (by decide)).2 c8h3 (by decide) (by decide) (by decide) hin

/-- Concrete C9 run: set 200, write, change status to 500, write
again. -/
def c9ops : List WOp :=
  [WOp.setStatus 200, WOp.write [1], WOp.setStatus 500, WOp.write [2]]

/-- C9 witness: the wire sees exactly status 200 (the value buffered at
the first write); the later `SetStatus 500` never reaches the wire;
both writes' bytes arrive in order; and the flag set after the second
operation is still set after the fourth. -/
theorem c9_write_once_discipline_witness :
    (runW initW c9ops).wireStatus = [200]
    ∧ (runW initW c9ops).wireBody = [1, 2]
    ∧ (runW initW c9ops).written = true
    ∧ (2 ≤ 4 ∧ (runW initW (c9ops.take 4)).written = true) := by
  have h := c9_write_once_discipline c9ops
  exact ⟨by rw [h.1]; decide, by rw [h.2.1]; decide, by rw [h.2.2.1]; decide,
    by decide, h.2.2.2 2 4 (by decide) (by decide)⟩

/-- Split a list at the first element satisfying `p` (the Go
`for … { if … { found; break } }` pattern, exposing the position for an
in-place update through the found pointer). -/
def splitBy (p : routeNode → Bool) :
    List routeNode → Option (List routeNode × routeNode × List routeNode)
  | [] => none
  | c :: cs =>
      if p c then some ([], c, cs)
      else (splitBy p cs).map (fun x => (c :: x.1, x.2.1, x.2.2))

/-- The `indices`-gated child lookup shared by `Insert` and
`mergeRouteNodes` in `part_005`: for a nonempty key, children are
scanned only when the key's first character occurs in the parent's
`indices` string, and the scan compares first character and full
text; for an empty key all children are scanned by full text. -/
def gatedSplit (indices : String) (children : List routeNode) (key : String) :
    Option (List routeNode × routeNode × List routeNode) :=
  match key.data with
  | [] => splitBy (fun c => c.path == key) children
  | ch :: _ =>
      if containsChar indices ch then
        splitBy (fun c => c.path.take 1 == String.mk [ch] && c.path == key) children
      else none

/-- Association-list model of the Go `map[string]*routeNode` router
map: overwrite-or-add. -/
def mapPutN : List (String × routeNode) → String → routeNode →
    List (String × routeNode)
  | [], k, v => [(k, v)]
  | (k', v') :: rest, k, v =>
      if k' = k then (k, v) :: rest else (k', v') :: mapPutN rest k v

/-- Lookup in the router map. -/
def mapGetN (m : List (String × routeNode)) (k : String) : Option routeNode :=
  (m.find? (fun e => e.1 == k)).map (fun e => e.2)

namespace P5

open routeNode

mutual
/-- `calculateMaxParams` of `part_005`: the running maximum over the
children starts from the node's own param indicator, and the *stored*
`maxParams` field is added at the end, as wrapping `uint8`
arithmetic. -/
def calculateMaxParams : routeNode → Nat
  | .mk _ _ children _ _ nt m _ _ =>
      (maxLoop (if nt = nodeType.param ∨ nt = nodeType.catchAll then 1 else 0)
        children + m) % 256

/-- The child loop of `part_005`'s `calculateMaxParams`. -/
def maxLoop (acc : Nat) : List routeNode → Nat
  | [] => acc
  | c :: cs =>
      maxLoop (if calculateMaxParams c > acc then calculateMaxParams c else acc) cs
end

/-- The fresh node `Insert` of `part_005` creates for an unseen
segment, typed by the segment's first character (the catch-all case
sets `wildChild` but, unlike `router.go`, never sets `paramName`). -/
def freshChild (part : String) (ch : Char) (pr : Nat) : routeNode :=
  if ch = ':' then
    .mk part "" [] none pr nodeType.param 0 false (part.drop 1)
  else if ch = '*' then
    .mk part "" [] none pr nodeType.catchAll 0 true ""
  else
    .mk part "" [] none pr nodeType.static 0 false ""

/-- The conditional `maxParams` refresh of `part_005`'s `Insert`:
`if r.maxParams < r.calculateMaxParams() { r.maxParams = ... }`. -/
def refreshMax (e : routeNode) : routeNode :=
  e.withMaxParams
    (if e.maxParams < calculateMaxParams e then calculateMaxParams e
     else e.maxParams)

/-- `routeNode.Insert` of `part_005`, recursing over the split
segments: child lookup via the `indices` gate, node creation via
`freshChild`, unconditional `indices` append, and the conditional
`maxParams` refresh, then descent. -/
def insertParts : routeNode → List String → List Nat → routeNode
  | cur, [], hs => cur.withHandlers (some hs)
  | cur, part :: rest, hs =>
    match part.data with
    | [] => insertParts cur rest hs
    | ch :: _ =>
      match gatedSplit cur.indices cur.children part with
      | some (l1, c, l2) =>
          (refreshMax cur).withChildren (l1 ++ insertParts c rest hs :: l2)
      | none =>
          let child := freshChild part ch ((cur.priority + 1) % 4294967296)
          let cur1 := (cur.withIndices (cur.indices.push ch)).withChildren
            (cur.children ++ [child])
          (refreshMax cur1).withChildren
            (cur.children ++ [insertParts child rest hs])

/-- `routeNode.Insert` of `part_005`. -/
def Insert (r : routeNode) (path : String) (hs : List Nat) : routeNode :=
  if path.length = 0 then r else insertParts r (splitPath path) hs

/-- `NewTire` of `part_005`. -/
def NewTire : routeNode :=
  .mk "" "" [] none 0 nodeType.root 0 false ""

mutual
/-- `mergeRouteNodes` of `part_005`: the incoming (`other`) chain
overwrites when non-`nil`, then the incoming children are folded in:
a child whose full text already exists (found through the `indices`
gate) is merged recursively in place; otherwise the incoming child is
adopted wholesale, appending its first character to `indices`. -/
def mergeRouteNodes : routeNode → routeNode → routeNode
  | existing, .mk _ _ ochildren oh _ _ _ _ _ =>
      mergeChildren
        (match oh with
         | some h => existing.withHandlers (some h)
         | none => existing)
        ochildren
termination_by structural _ o => o

/-- The child loop of `mergeRouteNodes`. -/
def mergeChildren : routeNode → List routeNode → routeNode
  | e, [] => e
  | e, oc :: ocs =>
      mergeChildren
        (match gatedSplit e.indices e.children oc.path with
         | some (l1, ec, l2) =>
             e.withChildren (l1 ++ mergeRouteNodes ec oc :: l2)
         | none =>
             (e.withIndices (e.indices ++ oc.path.take 1)).withChildren
               (e.children ++ [oc]))
        ocs
termination_by structural _ l => l
end

/-- `Router.MergeRouter` of `part_005` at the per-method map level:
for each method of the incoming router, merge into the existing tree
when present, otherwise adopt the whole tree. -/
def MergeRouter (r other : List (String × routeNode)) : List (String × routeNode) :=
  other.foldl
    (fun acc e =>
      match mapGetN acc e.1 with
      | some ex => mapPutN acc e.1 (mergeRouteNodes ex e.2)
      | none => mapPutN acc e.1 e.2)
    r

/-- The matching loop of `part_005`'s `FindChild`: static lookup via
the `indices` gate, then the first param child, then the first wildcard
catch-all child — which in this superseded variant binds only the
*single* current segment and keeps descending. -/
def findLoop : routeNode → List String → List (String × String) →
    Option (routeNode × List (String × String))
  | cur, [], ps => some (cur, ps)
  | cur, part :: rest, ps =>
    if part = "" then findLoop cur rest ps
    else if cur.children.isEmpty then none
    else
      match
        (match part.data with
         | [] => none
         | ch :: _ =>
           if containsChar cur.indices ch then
             cur.children.find?
               (fun c : routeNode =>
                 c.path.take 1 == String.mk [ch] && c.path == part)
           else none) with
      | some c => findLoop c rest ps
      | none =>
        match cur.children.find? (fun c => c.nType == nodeType.param) with
        | some c => findLoop c rest (mapPut ps c.paramName part)
        | none =>
          match cur.children.find?
              (fun c => c.nType == nodeType.catchAll && c.wildChild) with
          | some c => findLoop c rest (mapPut ps c.paramName part)
          | none => none

/-- `routeNode.FindChild` of `part_005`. -/
def FindChild (r : routeNode) (path : String) :
    Option (routeNode × List (String × String)) :=
  if path = "" then none else findLoop r (splitPath path) []

end P5

section SanityMerge

example :
    (P5.FindChild
      (P5.mergeRouteNodes (P5.Insert P5.NewTire "/a" [1]) (P5.Insert P5.NewTire "/a" [2]))
      "/a").map (fun r => (r.1.Handlers, r.2)) = some (some [2], []) := by
  decide

example :
    (P5.FindChild
      (P5.mergeRouteNodes
        (P5.Insert (P5.Insert P5.NewTire "/a/b" [1]) "/x/:id" [4])
        (P5.Insert (P5.Insert P5.NewTire "/a/c" [2]) "/x/:id" [3]))
      "/x/9").map (fun r => (r.1.Handlers, r.2))
    = (P5.FindChild
        (P5.Insert (P5.Insert (P5.Insert (P5.Insert P5.NewTire "/a/b" [1]) "/x/:id" [4])
          "/a/c" [2]) "/x/:id" [3])
        "/x/9").map (fun r => (r.1.Handlers, r.2)) := by
  decide

example :
    (P5.FindChild
      (P5.mergeRouteNodes
        (P5.Insert (P5.Insert P5.NewTire "/a/b" [1]) "/x/:id" [4])
        (P5.Insert (P5.Insert P5.NewTire "/a/c" [2]) "/x/:id" [3]))
      "/a/c").map (fun r => (r.1.Handlers, r.2))
    = (P5.FindChild
        (P5.Insert (P5.Insert (P5.Insert (P5.Insert P5.NewTire "/a/b" [1]) "/x/:id" [4])
          "/a/c" [2]) "/x/:id" [3])
        "/a/c").map (fun r => (r.1.Handlers, r.2)) := by
  decide

end SanityMerge

mutual
/-- Erase the fields that never influence matching — `priority` and
`maxParams` — recursively.  Two trees with the same `scrub` image
resolve every request identically. -/
def scrub : routeNode → routeNode
  | .mk p i c h _ t _ w n => .mk p i (scrubL c) h 0 t 0 w n

/-- `scrub` on a children list. -/
def scrubL : List routeNode → List routeNode
  | [] => []
  | c :: cs => scrub c :: scrubL cs
end

@[simp] theorem scrubL_nil : scrubL [] = [] := rfl

@[simp] theorem scrubL_cons (c : routeNode) (cs : List routeNode) :
    scrubL (c :: cs) = scrub c :: scrubL cs := rfl

theorem scrubL_append (l m : List routeNode) :
    scrubL (l ++ m) = scrubL l ++ scrubL m := by
  induction l with
  | nil => rfl
  | cons c cs ih => simp [ih]

@[simp] theorem scrub_path (n : routeNode) : (scrub n).path = n.path := by
  cases n; rfl

@[simp] theorem scrub_indices (n : routeNode) : (scrub n).indices = n.indices := by
  cases n; rfl

@[simp] theorem scrub_Handlers (n : routeNode) : (scrub n).Handlers = n.Handlers := by
  cases n; rfl

@[simp] theorem scrub_nType (n : routeNode) : (scrub n).nType = n.nType := by
  cases n; rfl

@[simp] theorem scrub_wildChild (n : routeNode) : (scrub n).wildChild = n.wildChild := by
  cases n; rfl

@[simp] theorem scrub_paramName (n : routeNode) : (scrub n).paramName = n.paramName := by
  cases n; rfl

@[simp] theorem scrub_children (n : routeNode) : (scrub n).children = scrubL n.children := by
  cases n; rfl

@[simp] theorem scrub_withChildren (n : routeNode) (cs : List routeNode) :
    scrub (n.withChildren cs) = (scrub n).withChildren (scrubL cs) := by
  cases n; rfl

@[simp] theorem scrub_withHandlers (n : routeNode) (h : Option (List Nat)) :
    scrub (n.withHandlers h) = (scrub n).withHandlers h := by
  cases n; rfl

@[simp] theorem scrub_withIndices (n : routeNode) (i : String) :
    scrub (n.withIndices i) = (scrub n).withIndices i := by
  cases n; rfl

@[simp] theorem scrub_withMaxParams (n : routeNode) (m : Nat) :
    scrub (n.withMaxParams m) = scrub n := by
  cases n; rfl

theorem scrubL_length (l : List routeNode) : (scrubL l).length = l.length := by
  induction l with
  | nil => rfl
  | cons c cs ih => simp [ih]

theorem scrub_mk_inj {p1 i1 c1 h1 t1 w1 n1 p2 i2 c2 h2 t2 w2 n2 pr1 m1 pr2 m2}
    (h : scrub (routeNode.mk p1 i1 c1 h1 pr1 t1 m1 w1 n1)
       = scrub (routeNode.mk p2 i2 c2 h2 pr2 t2 m2 w2 n2)) :
    p1 = p2 ∧ i1 = i2 ∧ scrubL c1 = scrubL c2 ∧ h1 = h2 ∧ t1 = t2
      ∧ w1 = w2 ∧ n1 = n2 := by
  rw [scrub, scrub] at h
  injection h with a b c d e f g h8 h9
  exact ⟨a, b, c, d, f, h8, h9⟩

theorem splitBy_none_iff (p : routeNode → Bool) (l : List routeNode) :
    splitBy p l = none ↔ ∀ c ∈ l, p c = false := by
  induction l with
  | nil => simp [splitBy]
  | cons c cs ih =>
    rw [splitBy]
    by_cases h : p c
    · simp [h]
    · simp only [if_neg h]
      constructor
      · intro hmap x hx
        rcases List.mem_cons.1 hx with rfl | hx'
        · exact Bool.eq_false_iff.mpr h
        · refine (ih.1 ?_) x hx'
          cases hcs : splitBy p cs with
          | none => rfl
          | some v => rw [hcs] at hmap; simp at hmap
      · intro hall
        have h0 : splitBy p cs = none :=
          ih.2 (fun x hx => hall x (List.mem_cons_of_mem _ hx))
        rw [h0]
        rfl

theorem splitBy_some (p : routeNode → Bool) (l a b : List routeNode) (c : routeNode)
    (h : splitBy p l = some (a, c, b)) :
    l = a ++ c :: b ∧ (∀ x ∈ a, p x = false) ∧ p c = true := by
  induction l generalizing a with
  | nil => simp [splitBy] at h
  | cons d ds ih =>
    rw [splitBy] at h
    by_cases hd : p d
    · rw [if_pos hd] at h
      injection h with h
      injection h with h1 h2
      injection h2 with h2 h3
      subst h1 h2 h3
      exact ⟨rfl, by simp, hd⟩
    · rw [if_neg hd] at h
      cases hsplit : splitBy p ds with
      | none => rw [hsplit] at h; simp at h
      | some v =>
        rw [hsplit] at h
        obtain ⟨a', c', b'⟩ := v
        simp only [Option.map_some', Option.some.injEq, Prod.mk.injEq] at h
        obtain ⟨h1, h2, h3⟩ := h
        subst h2 h3
        rcases ih a' hsplit with ⟨hl, hall, hc⟩
        subst h1
        refine ⟨by simp [hl], ?_, hc⟩
        intro x hx
        rcases List.mem_cons.1 hx with rfl | hx'
        · exact Bool.eq_false_iff.mpr hd
        · exact hall x hx'

theorem splitBy_of_decomp (p : routeNode → Bool) (a b : List routeNode)
    (c : routeNode) (hall : ∀ x ∈ a, p x = false) (hc : p c = true) :
    splitBy p (a ++ c :: b) = some (a, c, b) := by
  induction a with
  | nil => simp [splitBy, hc]
  | cons d ds ih =>
    have hd : p d = false := hall d (List.mem_cons_self _ _)
    rw [List.cons_append, splitBy, if_neg (by simp [hd]),
      ih (fun x hx => hall x (List.mem_cons_of_mem _ hx))]
    rfl

theorem splitBy_congrPred (p q : routeNode → Bool) (l : List routeNode)
    (h : ∀ x ∈ l, p x = q x) : splitBy p l = splitBy q l := by
  induction l with
  | nil => rfl
  | cons c cs ih =>
    rw [splitBy, splitBy, h c (List.mem_cons_self _ _),
      ih (fun x hx => h x (List.mem_cons_of_mem _ hx))]

theorem splitBy_scrub (p : routeNode → Bool) (hp : ∀ x, p (scrub x) = p x)
    (l l' : List routeNode) (h : scrubL l = scrubL l') :
    (splitBy p l).map (fun x => (scrubL x.1, scrub x.2.1, scrubL x.2.2))
      = (splitBy p l').map (fun x => (scrubL x.1, scrub x.2.1, scrubL x.2.2)) := by
  induction l generalizing l' with
  | nil =>
    cases l' with
    | nil => rfl
    | cons d ds => simp at h
  | cons c cs ih =>
    cases l' with
    | nil => simp at h
    | cons d ds =>
      simp only [scrubL_cons, List.cons.injEq] at h
      have hpc : p c = p d := by rw [← hp c, ← hp d, h.1]
      rw [splitBy, splitBy, ← hpc]
      by_cases hc : p c
      · simp [hc, h.1, h.2]
      · simp only [if_neg hc]
        have := ih ds h.2
        cases h1 : splitBy p cs with
        | none =>
          rw [h1] at this
          cases h2 : splitBy p ds with
          | none => rfl
          | some v => rw [h2] at this; simp at this
        | some v =>
          rw [h1] at this
          cases h2 : splitBy p ds with
          | none => rw [h2] at this; simp at this
          | some v' =>
            rw [h2] at this
            obtain ⟨a1, c1, b1⟩ := v
            obtain ⟨a2, c2, b2⟩ := v'
            simp only [Option.map_some', Option.some.injEq, Prod.mk.injEq] at this ⊢
            exact ⟨by simp [h.1, this.1], this.2.1, this.2.2⟩

mutual
/-- Well-formedness of a `part_005` tree reachable from `NewTire` by
inserts and merges: every child has a nonempty segment whose first
character occurs in the parent's `indices` (so the `indices` gate never
hides an existing child), and children are pairwise distinct by full
text. -/
def okN : routeNode → Prop
  | .mk _ i children _ _ _ _ _ _ =>
      (∀ c ∈ children, ∃ ch, c.path.data.head? = some ch
        ∧ containsChar i ch = true)
      ∧ ((children.map routeNode.path).Nodup ∧ okL children)

/-- `okN` for every member of a list. -/
def okL : List routeNode → Prop
  | [] => True
  | c :: cs => okN c ∧ okL cs
end

theorem okN_def (n : routeNode) :
    okN n ↔ ((∀ c ∈ n.children, ∃ ch, c.path.data.head? = some ch
        ∧ containsChar n.indices ch = true)
      ∧ ((n.children.map routeNode.path).Nodup ∧ okL n.children)) := by
  cases n; exact Iff.rfl

theorem okL_iff (l : List routeNode) : okL l ↔ ∀ c ∈ l, okN c := by
  induction l with
  | nil => simp [okL]
  | cons c cs ih =>
    rw [okL, ih]
    constructor
    · rintro ⟨h1, h2⟩ x hx
      rcases List.mem_cons.1 hx with rfl | hx'
      · exact h1
      · exact h2 x hx'
    · intro h
      exact ⟨h c (List.mem_cons_self _ _), fun x hx => h x (List.mem_cons_of_mem _ hx)⟩

theorem okL_append (l m : List routeNode) :
    okL (l ++ m) ↔ okL l ∧ okL m := by
  simp only [okL_iff]
  constructor
  · intro h
    exact ⟨fun c hc => h c (List.mem_append_left _ hc),
           fun c hc => h c (List.mem_append_right _ hc)⟩
  · rintro ⟨h1, h2⟩ c hc
    rcases List.mem_append.1 hc with hc' | hc'
    · exact h1 c hc'
    · exact h2 c hc'

theorem string_eq_of_data (s t : String) (h : s.data = t.data) : s = t :=
  String.ext h

theorem gatedSplit_eq (i : String) (l : List routeNode) (key : String)
    (hkey : key ≠ "")
    (hch : ∀ c ∈ l, ∃ ch, c.path.data.head? = some ch
      ∧ containsChar i ch = true) :
    gatedSplit i l key = splitBy (fun c => c.path == key) l := by
  cases hkd : key.data with
  | nil =>
    exact absurd (string_eq_of_data key "" hkd) hkey
  | cons ch rest =>
    rw [gatedSplit, hkd]
    dsimp only
    by_cases hgate : containsChar i ch
    · rw [if_pos hgate]
      apply splitBy_congrPred
      intro x _
      by_cases hx : x.path = key
      · have htake : key.take 1 = String.mk [ch] := by
          apply String.ext
          rw [String.data_take, hkd]
          rfl
        simp [hx, htake]
      · simp [beq_eq_false_iff_ne.mpr hx]
    · rw [if_neg hgate]
      symm
      rw [splitBy_none_iff]
      intro c hc
      by_cases hcp : c.path = key
      · exfalso
        rcases hch c hc with ⟨ch', hhead, hcont⟩
        rw [hcp, hkd] at hhead
        injection hhead with hhead
        rw [← hhead] at hcont
        exact hgate hcont
      · exact beq_eq_false_iff_ne.mpr hcp

theorem containsChar_push (s : String) (c c' : Char) (h : containsChar s c' = true) :
    containsChar (s.push c) c' = true := by
  simp only [containsChar, String.data_push] at h ⊢
  simp only [List.elem_eq_mem, decide_eq_true_eq] at h ⊢
  exact List.mem_append_left _ h

theorem containsChar_push_self (s : String) (c : Char) :
    containsChar (s.push c) c = true := by
  simp [containsChar, String.data_push, List.elem_eq_mem]

theorem containsChar_append_left (s t : String) (c : Char)
    (h : containsChar s c = true) : containsChar (s ++ t) c = true := by
  simp only [containsChar, String.data_append, List.elem_eq_mem,
    decide_eq_true_eq] at h ⊢
  exact List.mem_append_left _ h

theorem insertPartsP5_path (parts : List String) (cur : routeNode) (hs : List Nat) :
    (P5.insertParts cur parts hs).path = cur.path := by
  induction parts generalizing cur with
  | nil => simp [P5.insertParts]
  | cons part rest ih =>
    rw [P5.insertParts]
    rcases hdata : part.data with _ | ⟨ch, cs⟩
    · exact ih cur
    · cases hupd : gatedSplit cur.indices cur.children part with
      | some x => obtain ⟨l1, c, l2⟩ := x; simp [P5.refreshMax]
      | none => simp [P5.refreshMax]

theorem fresh_ok (p i : String) (h : Option (List Nat)) (pr : Nat) (t : nodeType)
    (m : Nat) (w : Bool) (n : String) :
    okN (routeNode.mk p i [] h pr t m w n) := by
  rw [okN_def]
  refine ⟨by simp, by simp, trivial⟩

@[simp] theorem freshChild_path (part : String) (ch : Char) (pr : Nat) :
    (P5.freshChild part ch pr).path = part := by
  rw [P5.freshChild]; split <;> (try split) <;> rfl

@[simp] theorem freshChild_children (part : String) (ch : Char) (pr : Nat) :
    (P5.freshChild part ch pr).children = [] := by
  rw [P5.freshChild]; split <;> (try split) <;> rfl

@[simp] theorem freshChild_Handlers (part : String) (ch : Char) (pr : Nat) :
    (P5.freshChild part ch pr).Handlers = none := by
  rw [P5.freshChild]; split <;> (try split) <;> rfl

theorem freshChild_okN (part : String) (ch : Char) (pr : Nat) :
    okN (P5.freshChild part ch pr) := by
  rw [P5.freshChild]; split <;> (try split) <;>
    exact fresh_ok _ _ _ _ _ _ _ _

theorem freshChild_scrub (part : String) (ch : Char) (pr pr' : Nat) :
    scrub (P5.freshChild part ch pr) = scrub (P5.freshChild part ch pr') := by
  rw [P5.freshChild, P5.freshChild]
  by_cases h1 : ch = ':'
  · rw [if_pos h1, if_pos h1]; rfl
  · by_cases h2 : ch = '*'
    · rw [if_neg h1, if_neg h1, if_pos h2, if_pos h2]; rfl
    · rw [if_neg h1, if_neg h1, if_neg h2, if_neg h2]; rfl

theorem scrub_refreshMax (e : routeNode) : scrub (P5.refreshMax e) = scrub e := by
  rw [P5.refreshMax]; exact scrub_withMaxParams _ _

theorem insertPartsP5_ok (parts : List String) (cur : routeNode) (hs : List Nat)
    (hok : okN cur) : okN (P5.insertParts cur parts hs) := by
  induction parts generalizing cur with
  | nil =>
    rw [P5.insertParts, okN_def] at *
    simpa using hok
  | cons part rest ih =>
    rw [P5.insertParts]
    rcases hdata : part.data with _ | ⟨ch, cs⟩
    · exact ih cur hok
    · rw [okN_def] at hok
      have hkey : part ≠ "" := by
        intro h
        rw [h] at hdata
        simp at hdata
      have hgs := gatedSplit_eq cur.indices cur.children part hkey hok.1
      cases hupd : gatedSplit cur.indices cur.children part with
      | some x =>
        obtain ⟨l1, c, l2⟩ := x
        rw [hupd] at hgs
        rcases splitBy_some _ _ _ _ _ hgs.symm with ⟨hdec, hall, hc⟩
        rw [okN_def]
        have hpathc : (P5.insertParts c rest hs).path = c.path :=
          insertPartsP5_path rest c hs
        have hmapeq : (l1 ++ P5.insertParts c rest hs :: l2).map routeNode.path
            = cur.children.map routeNode.path := by
          rw [hdec]
          simp [hpathc]
        refine ⟨?_, ?_, ?_⟩
        · intro d hd
          simp only [children_withChildren] at hd
          have : d.path ∈ (l1 ++ P5.insertParts c rest hs :: l2).map routeNode.path :=
            List.mem_map_of_mem _ hd
          rw [hmapeq] at this
          rcases List.mem_map.1 this with ⟨d', hd', hdp⟩
          rcases hok.1 d' hd' with ⟨ch', hh, hcont⟩
          exact ⟨ch', by rw [← hdp]; exact hh, by simpa [P5.refreshMax] using hcont⟩
        · simp only [children_withChildren, hmapeq]
          exact hok.2.1
        · simp only [children_withChildren]
          have hl := hok.2.2
          rw [hdec, okL_append, okL] at hl
          rw [okL_append, okL]
          exact ⟨hl.1, ih c hl.2.1, hl.2.2⟩
      | none =>
        rw [hupd] at hgs
        have hnone : ∀ x ∈ cur.children, (x.path == part) = false :=
          (splitBy_none_iff _ _).1 hgs.symm
        have hnotin : part ∉ cur.children.map routeNode.path := by
          intro hmem
          rcases List.mem_map.1 hmem with ⟨x, hx, hxp⟩
          have := hnone x hx
          rw [hxp] at this
          simp at this
        have key : ∀ child : routeNode, child.path = part → child.children = [] →
            okN child →
            okN ((P5.refreshMax ((cur.withIndices (cur.indices.push ch)).withChildren
                (cur.children ++ [child]))).withChildren
                (cur.children ++ [P5.insertParts child rest hs])) := by
          intro child hp hcfresh hcok
          rw [okN_def]
          simp only [P5.refreshMax]
          have hpathc : (P5.insertParts child rest hs).path = child.path :=
            insertPartsP5_path rest child hs
          refine ⟨?_, ?_, ?_⟩
          · intro d hd
            simp only [children_withChildren, indices_withMaxParams,
              indices_withChildren, indices_withIndices] at hd ⊢
            rcases List.mem_append.1 hd with hd' | hd'
            · rcases hok.1 d hd' with ⟨ch', hh, hcont⟩
              exact ⟨ch', hh, containsChar_push _ _ _ hcont⟩
            · rcases List.mem_singleton.1 hd' with rfl
              refine ⟨ch, ?_, containsChar_push_self _ _⟩
              rw [hpathc, hp, hdata]
              rfl
          · simp only [children_withChildren, List.map_append]
            rw [List.nodup_append]
            refine ⟨hok.2.1, by simp, ?_⟩
            intro x hx
            simp only [List.map_cons, List.map_nil, List.mem_singleton, hpathc, hp]
            intro hx'
            rw [hx'] at hx
            exact hnotin hx
          · simp only [children_withChildren]
            rw [okL_append, okL]
            exact ⟨hok.2.2, ih child hcok, trivial⟩
        exact key _ (freshChild_path _ _ _) (freshChild_children _ _ _)
          (freshChild_okN _ _ _)

@[simp] theorem withChildren_withChildren (n : routeNode) (a b : List routeNode) :
    (n.withChildren a).withChildren b = n.withChildren b := by
  cases n; rfl

@[simp] theorem withHandlers_withHandlers (n : routeNode) (a b : Option (List Nat)) :
    (n.withHandlers a).withHandlers b = n.withHandlers b := by
  cases n; rfl

theorem withHandlers_withChildren_comm (n : routeNode) (h : Option (List Nat))
    (c : List routeNode) :
    (n.withHandlers h).withChildren c = (n.withChildren c).withHandlers h := by
  cases n; rfl

theorem withHandlers_withIndices_comm (n : routeNode) (h : Option (List Nat))
    (i : String) :
    (n.withHandlers h).withIndices i = (n.withIndices i).withHandlers h := by
  cases n; rfl

theorem withChildren_withIndices_comm (n : routeNode) (c : List routeNode)
    (i : String) :
    (n.withChildren c).withIndices i = (n.withIndices i).withChildren c := by
  cases n; rfl

/-- The handler-overwrite prelude of `mergeRouteNodes`: the incoming
chain wins when non-`nil`. -/
def updH (e : routeNode) : Option (List Nat) → routeNode
  | some h => e.withHandlers (some h)
  | none => e

theorem mg_eq (e o : routeNode) :
    P5.mergeRouteNodes e o = P5.mergeChildren (updH e o.Handlers) o.children := by
  cases o; rfl

@[simp] theorem mc_nil (e : routeNode) : P5.mergeChildren e [] = e := rfl

theorem mc_cons_found (e oc : routeNode) (ocs l1 l2 : List routeNode) (ec : routeNode)
    (h : gatedSplit e.indices e.children oc.path = some (l1, ec, l2)) :
    P5.mergeChildren e (oc :: ocs)
      = P5.mergeChildren (e.withChildren (l1 ++ P5.mergeRouteNodes ec oc :: l2)) ocs := by
  rw [P5.mergeChildren, h]

theorem mc_cons_none (e oc : routeNode) (ocs : List routeNode)
    (h : gatedSplit e.indices e.children oc.path = none) :
    P5.mergeChildren e (oc :: ocs)
      = P5.mergeChildren ((e.withIndices (e.indices ++ oc.path.take 1)).withChildren
          (e.children ++ [oc])) ocs := by
  rw [P5.mergeChildren, h]

theorem mc_append (e : routeNode) (a b : List routeNode) :
    P5.mergeChildren e (a ++ b) = P5.mergeChildren (P5.mergeChildren e a) b := by
  induction a generalizing e with
  | nil => rfl
  | cons oc ocs ih =>
    rw [List.cons_append, P5.mergeChildren, P5.mergeChildren]
    exact ih _

theorem mc_withHandlers (ocs : List routeNode) (e : routeNode)
    (x : Option (List Nat)) :
    P5.mergeChildren (e.withHandlers x) ocs
      = (P5.mergeChildren e ocs).withHandlers x := by
  induction ocs generalizing e with
  | nil => rfl
  | cons oc rest ih =>
    rw [P5.mergeChildren, P5.mergeChildren]
    simp only [indices_withHandlers, children_withHandlers]
    cases h : gatedSplit e.indices e.children oc.path with
    | some v =>
      obtain ⟨l1, ec, l2⟩ := v
      dsimp only
      rw [withHandlers_withChildren_comm]
      exact ih _
    | none =>
      dsimp only
      rw [withHandlers_withIndices_comm, withHandlers_withChildren_comm]
      exact ih _

theorem mc_path (ocs : List routeNode) (e : routeNode) :
    (P5.mergeChildren e ocs).path = e.path := by
  induction ocs generalizing e with
  | nil => rfl
  | cons oc rest ih =>
    rw [P5.mergeChildren]
    cases h : gatedSplit e.indices e.children oc.path with
    | some v => obtain ⟨l1, ec, l2⟩ := v; rw [ih]; simp
    | none => rw [ih]; simp

theorem mg_path (e o : routeNode) : (P5.mergeRouteNodes e o).path = e.path := by
  rw [mg_eq, mc_path]
  cases o.Handlers <;> simp [updH]

mutual
/-- Size of a tree node, for size-bounded induction over the nested
`routeNode` structure. -/
def nsize : routeNode → Nat
  | .mk _ _ c _ _ _ _ _ _ => lsize c + 1

/-- Size of a children list. -/
def lsize : List routeNode → Nat
  | [] => 0
  | c :: cs => nsize c + lsize cs
end

theorem nsize_pos (n : routeNode) : 1 ≤ nsize n := by
  cases n; rw [nsize]; omega

theorem lsize_children_lt (n : routeNode) : lsize n.children < nsize n := by
  cases n with
  | mk p i c h pr t m w nm => rw [nsize]; simp only [routeNode.children_mk]; omega

theorem nsize_le_of_mem {c : routeNode} {l : List routeNode} (h : c ∈ l) :
    nsize c ≤ lsize l := by
  induction l with
  | nil => cases h
  | cons d ds ih =>
    rw [lsize]
    rcases List.mem_cons.1 h with rfl | h'
    · omega
    · have := ih h'; omega

theorem okN_withHandlers (n : routeNode) (h : Option (List Nat)) :
    okN (n.withHandlers h) ↔ okN n := by
  cases n; exact Iff.rfl

theorem okN_updH (e : routeNode) (h : Option (List Nat)) (he : okN e) :
    okN (updH e h) := by
  cases h with
  | none => exact he
  | some v => exact (okN_withHandlers _ _).mpr he

theorem head?_some_ne_empty (s : String) (ch : Char)
    (h : s.data.head? = some ch) : s ≠ "" := by
  intro he
  rw [he] at h
  simp at h

theorem containsChar_append_take1 (s t : String) (ch : Char) (cs : List Char)
    (h : t.data = ch :: cs) : containsChar (s ++ t.take 1) ch = true := by
  simp only [containsChar, String.data_append, String.data_take, h,
    List.take, List.elem_eq_mem, decide_eq_true_eq]
  exact List.mem_append_right _ (List.mem_cons_self _ _)

theorem mc_ok_size (k : Nat) : ∀ (ocs : List routeNode) (e : routeNode),
    lsize ocs ≤ k → okN e → (∀ oc ∈ ocs, okN oc ∧ oc.path ≠ "") →
    okN (P5.mergeChildren e ocs) := by
  induction k with
  | zero =>
    intro ocs e hsz he _
    cases ocs with
    | nil => exact he
    | cons oc rest =>
      exfalso
      rw [lsize] at hsz
      have := nsize_pos oc
      omega
  | succ k ih =>
    intro ocs e hsz he hl
    cases ocs with
    | nil => exact he
    | cons oc rest =>
      obtain ⟨hoc, hocne⟩ := hl oc (List.mem_cons_self _ _)
      have hrest : ∀ x ∈ rest, okN x ∧ x.path ≠ "" :=
        fun x hx => hl x (List.mem_cons_of_mem _ hx)
      have hcomp := (okN_def e).1 he
      have hgs := gatedSplit_eq e.indices e.children oc.path hocne hcomp.1
      have h1 : lsize rest ≤ k := by
        rw [lsize] at hsz
        have := nsize_pos oc
        omega
      cases hfind : gatedSplit e.indices e.children oc.path with
      | some v =>
        obtain ⟨l1, ec, l2⟩ := v
        rw [mc_cons_found e oc rest l1 l2 ec hfind]
        have hsb : splitBy (fun c => c.path == oc.path) e.children
            = some (l1, ec, l2) := by rw [← hgs, hfind]
        obtain ⟨hdec, hall, hpec⟩ := splitBy_some _ _ _ _ _ hsb
        have hec : okN ec := (okL_iff _).1 hcomp.2.2 ec
          (by rw [hdec]; exact List.mem_append_right _ (List.mem_cons_self _ _))
        have hmg : okN (P5.mergeRouteNodes ec oc) := by
          rw [mg_eq]
          have hocomp := (okN_def oc).1 hoc
          refine ih oc.children (updH ec oc.Handlers) ?_ (okN_updH _ _ hec) ?_
          · have h2 := lsize_children_lt oc
            rw [lsize] at hsz
            omega
          · intro x hx
            obtain ⟨chx, hhx, _⟩ := hocomp.1 x hx
            exact ⟨(okL_iff _).1 hocomp.2.2 x hx, head?_some_ne_empty _ _ hhx⟩
        refine ih rest _ h1 ?_ hrest
        rw [okN_def]
        have hmgpath : (P5.mergeRouteNodes ec oc).path = ec.path := mg_path _ _
        have hmapeq : (l1 ++ P5.mergeRouteNodes ec oc :: l2).map routeNode.path
            = e.children.map routeNode.path := by
          rw [hdec]; simp [hmgpath]
        refine ⟨?_, ?_, ?_⟩
        · intro d hd
          simp only [children_withChildren, indices_withChildren] at hd ⊢
          have : d.path ∈ (l1 ++ P5.mergeRouteNodes ec oc :: l2).map routeNode.path :=
            List.mem_map_of_mem _ hd
          rw [hmapeq] at this
          rcases List.mem_map.1 this with ⟨d', hd', hdp⟩
          rcases hcomp.1 d' hd' with ⟨ch', hh, hcont⟩
          exact ⟨ch', by rw [← hdp]; exact hh, hcont⟩
        · simp only [children_withChildren, hmapeq]
          exact hcomp.2.1
        · simp only [children_withChildren]
          have hle := hcomp.2.2
          rw [hdec, okL_append, okL] at hle
          rw [okL_append, okL]
          exact ⟨hle.1, hmg, hle.2.2⟩
      | none =>
        rw [mc_cons_none e oc rest hfind]
        have hnone : ∀ x ∈ e.children, (x.path == oc.path) = false :=
          (splitBy_none_iff _ _).1 (by rw [← hgs, hfind])
        have hnotin : oc.path ∉ e.children.map routeNode.path := by
          intro hmem
          rcases List.mem_map.1 hmem with ⟨x, hx, hxp⟩
          have := hnone x hx
          rw [hxp] at this
          simp at this
        rcases hocd : oc.path.data with _ | ⟨ch, cs⟩
        · exact absurd (string_eq_of_data _ _ (by rw [hocd])) hocne
        refine ih rest _ h1 ?_ hrest
        rw [okN_def]
        refine ⟨?_, ?_, ?_⟩
        · intro d hd
          simp only [children_withChildren, indices_withChildren,
            indices_withIndices] at hd ⊢
          rcases List.mem_append.1 hd with hd' | hd'
          · rcases hcomp.1 d hd' with ⟨ch', hh, hcont⟩
            exact ⟨ch', hh, containsChar_append_left _ _ _ hcont⟩
          · rcases List.mem_singleton.1 hd' with rfl
            exact ⟨ch, by rw [hocd]; rfl, containsChar_append_take1 _ _ _ _ hocd⟩
        · simp only [children_withChildren, List.map_append]
          rw [List.nodup_append]
          refine ⟨hcomp.2.1, by simp, ?_⟩
          intro x hx
          simp only [List.map_cons, List.map_nil, List.mem_singleton]
          intro hx'
          rw [hx'] at hx
          exact hnotin hx
        · simp only [children_withChildren]
          rw [okL_append, okL]
          exact ⟨hcomp.2.2, hoc, trivial⟩

theorem mg_ok (e o : routeNode) (he : okN e) (ho : okN o) :
    okN (P5.mergeRouteNodes e o) := by
  rw [mg_eq]
  have hcomp := (okN_def o).1 ho
  refine mc_ok_size (lsize o.children) o.children (updH e o.Handlers) le_rfl
    (okN_updH _ _ he) ?_
  intro x hx
  obtain ⟨chx, hhx, _⟩ := hcomp.1 x hx
  exact ⟨(okL_iff _).1 hcomp.2.2 x hx, head?_some_ne_empty _ _ hhx⟩

theorem splitBy_slot (p : routeNode → Bool) (p1 p2 : List routeNode)
    (s1 s2 : routeNode) (hp1 : p s1 = false) (hp2 : p s2 = false) :
    (splitBy p (p1 ++ s1 :: p2) = none ∧ splitBy p (p1 ++ s2 :: p2) = none)
    ∨ (∃ a c b, p1 = a ++ c :: b
        ∧ splitBy p (p1 ++ s1 :: p2) = some (a, c, b ++ s1 :: p2)
        ∧ splitBy p (p1 ++ s2 :: p2) = some (a, c, b ++ s2 :: p2))
    ∨ (∃ a c b, p2 = a ++ c :: b
        ∧ splitBy p (p1 ++ s1 :: p2) = some (p1 ++ s1 :: a, c, b)
        ∧ splitBy p (p1 ++ s2 :: p2) = some (p1 ++ s2 :: a, c, b)) := by
  induction p1 with
  | nil =>
    simp only [List.nil_append]
    rw [splitBy, splitBy, if_neg (by simp [hp1]), if_neg (by simp [hp2])]
    cases hsp : splitBy p p2 with
    | none => exact Or.inl ⟨rfl, rfl⟩
    | some v =>
      obtain ⟨a, c, b⟩ := v
      obtain ⟨hdec, _, _⟩ := splitBy_some _ _ _ _ _ hsp
      exact Or.inr (Or.inr ⟨a, c, b, hdec, rfl, rfl⟩)
  | cons d ds ih =>
    by_cases hd : p d
    · refine Or.inr (Or.inl ⟨[], d, ds, rfl, ?_, ?_⟩)
      · rw [List.cons_append, splitBy, if_pos hd]
      · rw [List.cons_append, splitBy, if_pos hd]
    · rcases ih with ⟨h1, h2⟩ | ⟨a, c, b, hdec, h1, h2⟩ | ⟨a, c, b, hdec, h1, h2⟩
      · refine Or.inl ⟨?_, ?_⟩
        · rw [List.cons_append, splitBy, if_neg hd, h1]; rfl
        · rw [List.cons_append, splitBy, if_neg hd, h2]; rfl
      · refine Or.inr (Or.inl ⟨d :: a, c, b, by rw [hdec, List.cons_append], ?_, ?_⟩)
        · rw [List.cons_append, splitBy, if_neg hd, h1]; rfl
        · rw [List.cons_append, splitBy, if_neg hd, h2]; rfl
      · refine Or.inr (Or.inr ⟨a, c, b, hdec, ?_, ?_⟩)
        · rw [List.cons_append, splitBy, if_neg hd, h1]; rfl
        · rw [List.cons_append, splitBy, if_neg hd, h2]; rfl

theorem gatedSplit_slot (i : String) (key : String) (p1 p2 : List routeNode)
    (s1 s2 : routeNode) (hpath : s1.path = s2.path) (hne : key ≠ s1.path) :
    (gatedSplit i (p1 ++ s1 :: p2) key = none
      ∧ gatedSplit i (p1 ++ s2 :: p2) key = none)
    ∨ (∃ a c b, p1 = a ++ c :: b
        ∧ gatedSplit i (p1 ++ s1 :: p2) key = some (a, c, b ++ s1 :: p2)
        ∧ gatedSplit i (p1 ++ s2 :: p2) key = some (a, c, b ++ s2 :: p2))
    ∨ (∃ a c b, p2 = a ++ c :: b
        ∧ gatedSplit i (p1 ++ s1 :: p2) key = some (p1 ++ s1 :: a, c, b)
        ∧ gatedSplit i (p1 ++ s2 :: p2) key = some (p1 ++ s2 :: a, c, b)) := by
  cases hkd : key.data with
  | nil =>
    rw [gatedSplit, gatedSplit, hkd]
    have hs1 : (s1.path == key) = false := by
      exact beq_eq_false_iff_ne.mpr (fun h => hne h.symm)
    have hs2 : (s2.path == key) = false := by
      rw [← hpath] at *
      exact hs1
    exact splitBy_slot _ _ _ _ _ hs1 hs2
  | cons ch chs =>
    rw [gatedSplit, gatedSplit, hkd]
    dsimp only
    by_cases hgate : containsChar i ch
    · rw [if_pos hgate, if_pos hgate]
      have hs1 : (s1.path.take 1 == String.mk [ch] && s1.path == key) = false := by
        have : (s1.path == key) = false :=
          beq_eq_false_iff_ne.mpr (fun h => hne h.symm)
        simp [this]
      have hs2 : (s2.path.take 1 == String.mk [ch] && s2.path == key) = false := by
        rw [← hpath]
        exact hs1
      exact splitBy_slot _ _ _ _ _ hs1 hs2
    · rw [if_neg hgate, if_neg hgate]
      exact Or.inl ⟨rfl, rfl⟩

theorem mc_slot (ocs : List routeNode) :
    ∀ (W : routeNode) (p1 p2 : List routeNode) (s1 s2 : routeNode),
    s1.path = s2.path → (∀ oc ∈ ocs, oc.path ≠ s1.path) →
    ∃ (W' : routeNode) (q1 q2 : List routeNode),
      q1.map routeNode.path = p1.map routeNode.path
      ∧ P5.mergeChildren (W.withChildren (p1 ++ s1 :: p2)) ocs
          = W'.withChildren (q1 ++ s1 :: q2)
      ∧ P5.mergeChildren (W.withChildren (p1 ++ s2 :: p2)) ocs
          = W'.withChildren (q1 ++ s2 :: q2) := by
  induction ocs with
  | nil =>
    intro W p1 p2 s1 s2 hpath hocc
    exact ⟨W, p1, p2, rfl, rfl, rfl⟩
  | cons oc rest ih =>
    intro W p1 p2 s1 s2 hpath hocc
    have hocne : oc.path ≠ s1.path := hocc oc (List.mem_cons_self _ _)
    have hrest : ∀ x ∈ rest, x.path ≠ s1.path :=
      fun x hx => hocc x (List.mem_cons_of_mem _ hx)
    rcases gatedSplit_slot W.indices oc.path p1 p2 s1 s2 hpath hocne with
      ⟨hg1, hg2⟩ | ⟨a, c, b, hdec, hg1, hg2⟩ | ⟨a, c, b, hdec, hg1, hg2⟩
    · rw [mc_cons_none _ _ _ (by
          simpa only [indices_withChildren, children_withChildren] using hg1),
        mc_cons_none _ _ _ (by
          simpa only [indices_withChildren, children_withChildren] using hg2)]
      simp only [indices_withChildren, children_withChildren,
        withChildren_withIndices_comm, withChildren_withChildren,
        List.append_assoc, List.cons_append]
      exact ih _ p1 (p2 ++ [oc]) s1 s2 hpath hrest
    · rw [mc_cons_found _ _ _ _ _ _ (by
          simpa only [indices_withChildren, children_withChildren] using hg1),
        mc_cons_found _ _ _ _ _ _ (by
          simpa only [indices_withChildren, children_withChildren] using hg2)]
      simp only [withChildren_withChildren]
      have hshape1 : a ++ P5.mergeRouteNodes c oc :: (b ++ s1 :: p2)
          = (a ++ P5.mergeRouteNodes c oc :: b) ++ s1 :: p2 := by
        simp
      have hshape2 : a ++ P5.mergeRouteNodes c oc :: (b ++ s2 :: p2)
          = (a ++ P5.mergeRouteNodes c oc :: b) ++ s2 :: p2 := by
        simp
      rw [hshape1, hshape2]
      obtain ⟨W', q1, q2, hq, h1, h2⟩ :=
        ih W (a ++ P5.mergeRouteNodes c oc :: b) p2 s1 s2 hpath hrest
      refine ⟨W', q1, q2, ?_, h1, h2⟩
      rw [hq, hdec]
      simp [mg_path]
    · rw [mc_cons_found _ _ _ _ _ _ (by
          simpa only [indices_withChildren, children_withChildren] using hg1),
        mc_cons_found _ _ _ _ _ _ (by
          simpa only [indices_withChildren, children_withChildren] using hg2)]
      simp only [withChildren_withChildren]
      have hshape1 : (p1 ++ s1 :: a) ++ P5.mergeRouteNodes c oc :: b
          = p1 ++ s1 :: (a ++ P5.mergeRouteNodes c oc :: b) := by
        simp
      have hshape2 : (p1 ++ s2 :: a) ++ P5.mergeRouteNodes c oc :: b
          = p1 ++ s2 :: (a ++ P5.mergeRouteNodes c oc :: b) := by
        simp
      rw [hshape1, hshape2]
      exact ih W p1 (a ++ P5.mergeRouteNodes c oc :: b) s1 s2 hpath hrest

theorem ip_nil (u : routeNode) (hs : List Nat) :
    P5.insertParts u [] hs = u.withHandlers (some hs) := rfl

theorem ip_cons_skip (u : routeNode) (part : String) (rest : List String)
    (hs : List Nat) (h : part.data = []) :
    P5.insertParts u (part :: rest) hs = P5.insertParts u rest hs := by
  rw [P5.insertParts, h]

theorem ip_cons_found (u : routeNode) (part : String) (rest : List String)
    (hs : List Nat) (ch : Char) (cs : List Char) (l1 l2 : List routeNode)
    (c : routeNode) (hdata : part.data = ch :: cs)
    (h : gatedSplit u.indices u.children part = some (l1, c, l2)) :
    P5.insertParts u (part :: rest) hs
      = (P5.refreshMax u).withChildren (l1 ++ P5.insertParts c rest hs :: l2) := by
  rw [P5.insertParts, hdata, h]

theorem ip_cons_none (u : routeNode) (part : String) (rest : List String)
    (hs : List Nat) (ch : Char) (cs : List Char) (hdata : part.data = ch :: cs)
    (h : gatedSplit u.indices u.children part = none) :
    P5.insertParts u (part :: rest) hs
      = (P5.refreshMax ((u.withIndices (u.indices.push ch)).withChildren
            (u.children ++ [P5.freshChild part ch ((u.priority + 1) % 4294967296)]))).withChildren
          (u.children
            ++ [P5.insertParts (P5.freshChild part ch ((u.priority + 1) % 4294967296))
                  rest hs]) := by
  rw [P5.insertParts, hdata]
  rw [h]

theorem gatedSplit_scrub (l l' : List routeNode) (h : scrubL l = scrubL l')
    (i key : String) :
    (gatedSplit i l key).map (fun x => (scrubL x.1, scrub x.2.1, scrubL x.2.2))
      = (gatedSplit i l' key).map
          (fun x => (scrubL x.1, scrub x.2.1, scrubL x.2.2)) := by
  cases hkd : key.data with
  | nil =>
    rw [gatedSplit, gatedSplit, hkd]
    exact splitBy_scrub _ (fun x => by simp) _ _ h
  | cons ch chs =>
    rw [gatedSplit, gatedSplit, hkd]
    dsimp only
    by_cases hgate : containsChar i ch
    · rw [if_pos hgate, if_pos hgate]
      exact splitBy_scrub _ (fun x => by simp) _ _ h
    · rw [if_neg hgate, if_neg hgate]

theorem ip_scrub_congr (parts : List String) :
    ∀ (a b : routeNode) (hs : List Nat), scrub a = scrub b →
    scrub (P5.insertParts a parts hs) = scrub (P5.insertParts b parts hs) := by
  induction parts with
  | nil =>
    intro a b hs h
    rw [ip_nil, ip_nil, scrub_withHandlers, scrub_withHandlers, h]
  | cons part rest ih =>
    intro a b hs h
    rcases hdata : part.data with _ | ⟨ch, cs⟩
    · rw [ip_cons_skip _ _ _ _ hdata, ip_cons_skip _ _ _ _ hdata]
      exact ih a b hs h
    · have hind : a.indices = b.indices := by
        rw [← scrub_indices a, ← scrub_indices b, h]
      have hch : scrubL a.children = scrubL b.children := by
        rw [← scrub_children a, ← scrub_children b, h]
      have hgsb : (gatedSplit b.indices a.children part).map
            (fun x => (scrubL x.1, scrub x.2.1, scrubL x.2.2))
          = (gatedSplit b.indices b.children part).map
            (fun x => (scrubL x.1, scrub x.2.1, scrubL x.2.2)) :=
        gatedSplit_scrub _ _ hch _ _
      rw [← hind] at hgsb
      cases hga : gatedSplit a.indices a.children part with
      | some v =>
        obtain ⟨l1, c, l2⟩ := v
        rw [hga] at hgsb
        rw [hind] at hgsb
        cases hgb : gatedSplit b.indices b.children part with
        | none => rw [hgb] at hgsb; simp at hgsb
        | some w =>
          obtain ⟨l1', c', l2'⟩ := w
          rw [hgb] at hgsb
          simp only [Option.map_some', Option.some.injEq, Prod.mk.injEq] at hgsb
          obtain ⟨hl1, hc, hl2⟩ := hgsb
          rw [ip_cons_found _ _ _ _ _ _ _ _ _ hdata hga,
            ip_cons_found _ _ _ _ _ _ _ _ _ hdata hgb]
          rw [scrub_withChildren, scrub_withChildren, scrub_refreshMax,
            scrub_refreshMax, h]
          congr 1
          rw [scrubL_append, scrubL_append, hl1, scrubL_cons, scrubL_cons, hl2,
            ih c c' hs hc]
      | none =>
        rw [hga] at hgsb
        rw [hind] at hgsb
        cases hgb : gatedSplit b.indices b.children part with
        | some w => rw [hgb] at hgsb; simp at hgsb
        | none =>
          rw [ip_cons_none _ _ _ _ _ _ hdata hga,
            ip_cons_none _ _ _ _ _ _ hdata hgb]
          simp only [scrub_withChildren, scrub_refreshMax, scrub_withIndices,
            withChildren_withChildren, scrubL_append, scrubL_cons, scrubL_nil,
            h, hind, hch]
          rw [ih _ _ hs (freshChild_scrub part ch _ _)]

@[simp] theorem Handlers_refreshMax (e : routeNode) :
    (P5.refreshMax e).Handlers = e.Handlers := by
  rw [P5.refreshMax]; simp

@[simp] theorem children_refreshMax (e : routeNode) :
    (P5.refreshMax e).children = e.children := by
  rw [P5.refreshMax]; simp

@[simp] theorem indices_refreshMax (e : routeNode) :
    (P5.refreshMax e).indices = e.indices := by
  rw [P5.refreshMax]; simp

@[simp] theorem path_refreshMax (e : routeNode) :
    (P5.refreshMax e).path = e.path := by
  rw [P5.refreshMax]; simp

theorem merge_insert_comm (parts : List String) :
    ∀ (t u : routeNode) (hs : List Nat), okN t → okN u →
    scrub (P5.mergeRouteNodes t (P5.insertParts u parts hs))
      = scrub (P5.insertParts (P5.mergeRouteNodes t u) parts hs) := by
  induction parts with
  | nil =>
    intro t u hs hot hou
    rw [ip_nil, ip_nil, mg_eq t (u.withHandlers (some hs)), mg_eq t u]
    simp only [Handlers_withHandlers, children_withHandlers]
    cases hH : u.Handlers with
    | none =>
      simp only [updH]
      rw [mc_withHandlers]
    | some v =>
      simp only [updH]
      rw [mc_withHandlers, mc_withHandlers, withHandlers_withHandlers]
  | cons part rest ih =>
    intro t u hs hot hou
    rcases hdata : part.data with _ | ⟨ch, cs⟩
    · rw [ip_cons_skip _ _ _ _ hdata, ip_cons_skip _ _ _ _ hdata]
      exact ih t u hs hot hou
    · have hne : part ≠ "" := by
        intro he
        rw [he] at hdata
        simp at hdata
      have hu := (okN_def u).1 hou
      have hgsu := gatedSplit_eq u.indices u.children part hne hu.1
      have hokE0 : okN (updH t u.Handlers) := okN_updH _ _ hot
      cases hfind : gatedSplit u.indices u.children part with
      | some v =>
        obtain ⟨l1, c, l2⟩ := v
        have hsb : splitBy (fun x => x.path == part) u.children = some (l1, c, l2) := by
          rw [← hgsu, hfind]
        obtain ⟨hdec, hall, hpc⟩ := splitBy_some _ _ _ _ _ hsb
        have hcpath : c.path = part := by simpa using hpc
        have hXp : (P5.insertParts c rest hs).path = part := by
          rw [insertPartsP5_path]; exact hcpath
        have hl1ok : ∀ x ∈ l1, okN x ∧ x.path ≠ "" := by
          intro x hx
          have hxmem : x ∈ u.children := by
            rw [hdec]; exact List.mem_append_left _ hx
          obtain ⟨chx, hhx, _⟩ := hu.1 x hxmem
          exact ⟨(okL_iff _).1 hu.2.2 x hxmem, head?_some_ne_empty _ _ hhx⟩
        have hE1ok : okN (P5.mergeChildren (updH t u.Handlers) l1) :=
          mc_ok_size (lsize l1) l1 _ le_rfl hokE0 hl1ok
        have hcok : okN c := (okL_iff _).1 hu.2.2 c
          (by rw [hdec]; exact List.mem_append_right _ (List.mem_cons_self _ _))
        have hl2ne : ∀ x ∈ l2, x.path ≠ part := by
          intro x hx
          have hnd := hu.2.1
          rw [hdec] at hnd
          simp only [List.map_append, List.map_cons] at hnd
          have hnotin : c.path ∉ l2.map routeNode.path := by
            rcases List.nodup_append.1 hnd with ⟨_, hnd2, _⟩
            exact (List.nodup_cons.1 hnd2).1
          intro hxp
          refine hnotin ?_
          rw [hcpath, ← hxp]
          exact List.mem_map_of_mem _ hx
        have hokM0 : okN (P5.mergeRouteNodes t u) := mg_ok t u hot hou
        have hE1gs := gatedSplit_eq (P5.mergeChildren (updH t u.Handlers) l1).indices
          (P5.mergeChildren (updH t u.Handlers) l1).children part hne
          ((okN_def _).1 hE1ok).1
        rw [ip_cons_found _ _ _ _ _ _ _ _ _ hdata hfind,
          mg_eq t ((P5.refreshMax u).withChildren
            (l1 ++ P5.insertParts c rest hs :: l2))]
        simp only [Handlers_withChildren, Handlers_refreshMax, children_withChildren]
        rw [mc_append, mg_eq t u, hdec, mc_append]
        cases hf2 : gatedSplit (P5.mergeChildren (updH t u.Handlers) l1).indices
            (P5.mergeChildren (updH t u.Handlers) l1).children part with
        | some y =>
          obtain ⟨m1, ec, m2⟩ := y
          have hsb2 : splitBy (fun x => x.path == part)
              (P5.mergeChildren (updH t u.Handlers) l1).children
              = some (m1, ec, m2) := by
            rw [← hE1gs, hf2]
          obtain ⟨hdec2, hall2, hpec2⟩ := splitBy_some _ _ _ _ _ hsb2
          have hecpath : ec.path = part := by simpa using hpec2
          have hecok : okN ec := (okL_iff _).1 ((okN_def _).1 hE1ok).2.2 ec
            (by rw [hdec2]; exact List.mem_append_right _ (List.mem_cons_self _ _))
          have hf2X : gatedSplit (P5.mergeChildren (updH t u.Handlers) l1).indices
              (P5.mergeChildren (updH t u.Handlers) l1).children
              (P5.insertParts c rest hs).path = some (m1, ec, m2) := by
            rw [hXp]; exact hf2
          have hf2c : gatedSplit (P5.mergeChildren (updH t u.Handlers) l1).indices
              (P5.mergeChildren (updH t u.Handlers) l1).children c.path
              = some (m1, ec, m2) := by
            rw [hcpath]; exact hf2
          rw [mc_cons_found _ _ _ _ _ _ hf2X, mc_cons_found _ _ _ _ _ _ hf2c]
          have hslotpath : (P5.mergeRouteNodes ec (P5.insertParts c rest hs)).path
              = (P5.mergeRouteNodes ec c).path := by
            rw [mg_path, mg_path]
          have hslotne : ∀ oc ∈ l2,
              oc.path ≠ (P5.mergeRouteNodes ec (P5.insertParts c rest hs)).path := by
            intro oc hoc
            rw [mg_path, hecpath]
            exact hl2ne oc hoc
          obtain ⟨W', q1, q2, hq1, hLrun, hRrun⟩ := mc_slot l2
            (P5.mergeChildren (updH t u.Handlers) l1) m1 m2
            (P5.mergeRouteNodes ec (P5.insertParts c rest hs))
            (P5.mergeRouteNodes ec c) hslotpath hslotne
          rw [hLrun, hRrun]
          have hokM0' : okN (W'.withChildren (q1 ++ P5.mergeRouteNodes ec c :: q2)) := by
            have hM0eq : P5.mergeRouteNodes t u
                = W'.withChildren (q1 ++ P5.mergeRouteNodes ec c :: q2) := by
              rw [mg_eq t u, hdec, mc_append, mc_cons_found _ _ _ _ _ _ hf2c, hRrun]
            exact hM0eq ▸ hokM0
          have hq1ne : ∀ x ∈ q1, (x.path == part) = false := by
            intro x hx
            have hx' : x.path ∈ m1.map routeNode.path := by
              rw [← hq1]; exact List.mem_map_of_mem _ hx
            rcases List.mem_map.1 hx' with ⟨y, hy, hyp⟩
            have hyf := hall2 y hy
            rw [hyp] at hyf
            exact hyf
          have hgins : gatedSplit
              (W'.withChildren (q1 ++ P5.mergeRouteNodes ec c :: q2)).indices
              (W'.withChildren (q1 ++ P5.mergeRouteNodes ec c :: q2)).children part
              = some (q1, P5.mergeRouteNodes ec c, q2) := by
            rw [gatedSplit_eq _ _ _ hne ((okN_def _).1 hokM0').1,
              children_withChildren]
            refine splitBy_of_decomp _ _ _ _ hq1ne ?_
            simp [mg_path, hecpath]
          rw [ip_cons_found _ _ _ _ _ _ _ _ _ hdata hgins]
          simp only [scrub_withChildren, scrub_refreshMax, withChildren_withChildren,
            scrubL_append, scrubL_cons]
          rw [ih ec c hs hecok hcok]
        | none =>
          have hf2X : gatedSplit (P5.mergeChildren (updH t u.Handlers) l1).indices
              (P5.mergeChildren (updH t u.Handlers) l1).children
              (P5.insertParts c rest hs).path = none := by
            rw [hXp]; exact hf2
          have hf2c : gatedSplit (P5.mergeChildren (updH t u.Handlers) l1).indices
              (P5.mergeChildren (updH t u.Handlers) l1).children c.path = none := by
            rw [hcpath]; exact hf2
          rw [mc_cons_none _ _ _ hf2X, mc_cons_none _ _ _ hf2c, hXp, hcpath]
          have hXcPath : (P5.insertParts c rest hs).path = c.path := by
            rw [hXp, hcpath]
          have hslotne : ∀ oc ∈ l2, oc.path ≠ (P5.insertParts c rest hs).path := by
            intro oc hoc
            rw [hXp]
            exact hl2ne oc hoc
          obtain ⟨W', q1, q2, hq1, hLrun, hRrun⟩ := mc_slot l2
            ((P5.mergeChildren (updH t u.Handlers) l1).withIndices
              ((P5.mergeChildren (updH t u.Handlers) l1).indices ++ part.take 1))
            (P5.mergeChildren (updH t u.Handlers) l1).children []
            (P5.insertParts c rest hs) c hXcPath hslotne
          rw [hLrun, hRrun]
          have hallE1 : ∀ x ∈ (P5.mergeChildren (updH t u.Handlers) l1).children,
              (x.path == part) = false :=
            (splitBy_none_iff _ _).1 (by rw [← hE1gs, hf2])
          have hokM0' : okN (W'.withChildren (q1 ++ c :: q2)) := by
            have hM0eq : P5.mergeRouteNodes t u = W'.withChildren (q1 ++ c :: q2) := by
              rw [mg_eq t u, hdec, mc_append, mc_cons_none _ _ _ hf2c, hcpath, hRrun]
            exact hM0eq ▸ hokM0
          have hq1ne : ∀ x ∈ q1, (x.path == part) = false := by
            intro x hx
            have hx' : x.path
                ∈ (P5.mergeChildren (updH t u.Handlers) l1).children.map
                    routeNode.path := by
              rw [← hq1]; exact List.mem_map_of_mem _ hx
            rcases List.mem_map.1 hx' with ⟨y, hy, hyp⟩
            have hyf := hallE1 y hy
            rw [hyp] at hyf
            exact hyf
          have hgins : gatedSplit (W'.withChildren (q1 ++ c :: q2)).indices
              (W'.withChildren (q1 ++ c :: q2)).children part
              = some (q1, c, q2) := by
            rw [gatedSplit_eq _ _ _ hne ((okN_def _).1 hokM0').1,
              children_withChildren]
            refine splitBy_of_decomp _ _ _ _ hq1ne ?_
            simp [hcpath]
          rw [ip_cons_found _ _ _ _ _ _ _ _ _ hdata hgins]
          simp only [scrub_withChildren, scrub_refreshMax, withChildren_withChildren]
      | none =>
        rw [ip_cons_none _ _ _ _ _ _ hdata hfind,
          mg_eq t ((P5.refreshMax ((u.withIndices (u.indices.push ch)).withChildren
              (u.children
                ++ [P5.freshChild part ch ((u.priority + 1) % 4294967296)]))).withChildren
            (u.children
              ++ [P5.insertParts (P5.freshChild part ch ((u.priority + 1) % 4294967296))
                    rest hs]))]
        simp only [Handlers_withChildren, Handlers_refreshMax, Handlers_withIndices,
          children_withChildren]
        rw [mc_append]
        have hM0 : P5.mergeRouteNodes t u
            = P5.mergeChildren (updH t u.Handlers) u.children := mg_eq t u
        have hokM0 : okN (P5.mergeRouteNodes t u) := mg_ok t u hot hou
        have hokM0' : okN (P5.mergeChildren (updH t u.Handlers) u.children) :=
          hM0 ▸ hokM0
        have hXp : (P5.insertParts
            (P5.freshChild part ch ((u.priority + 1) % 4294967296)) rest hs).path
            = part := by
          rw [insertPartsP5_path, freshChild_path]
        have hgsM0 := gatedSplit_eq
          (P5.mergeChildren (updH t u.Handlers) u.children).indices
          (P5.mergeChildren (updH t u.Handlers) u.children).children part hne
          ((okN_def _).1 hokM0').1
        cases hf2 : gatedSplit
            (P5.mergeChildren (updH t u.Handlers) u.children).indices
            (P5.mergeChildren (updH t u.Handlers) u.children).children part with
        | some y =>
          obtain ⟨m1, ec, m2⟩ := y
          have hsb2 : splitBy (fun x => x.path == part)
              (P5.mergeChildren (updH t u.Handlers) u.children).children
              = some (m1, ec, m2) := by
            rw [← hgsM0, hf2]
          obtain ⟨hdec2, hall2, hpec2⟩ := splitBy_some _ _ _ _ _ hsb2
          have hecpath : ec.path = part := by simpa using hpec2
          have hecok : okN ec := (okL_iff _).1 ((okN_def _).1 hokM0').2.2 ec
            (by rw [hdec2]; exact List.mem_append_right _ (List.mem_cons_self _ _))
          have hf2X : gatedSplit
              (P5.mergeChildren (updH t u.Handlers) u.children).indices
              (P5.mergeChildren (updH t u.Handlers) u.children).children
              (P5.insertParts
                (P5.freshChild part ch ((u.priority + 1) % 4294967296)) rest hs).path
              = some (m1, ec, m2) := by
            rw [hXp]; exact hf2
          rw [mc_cons_found _ _ _ _ _ _ hf2X, mc_nil, hM0,
            ip_cons_found _ _ _ _ _ _ _ _ _ hdata hf2]
          simp only [scrub_withChildren, scrub_refreshMax, scrubL_append, scrubL_cons]
          have hmgchild : P5.mergeRouteNodes ec
              (P5.freshChild part ch ((u.priority + 1) % 4294967296)) = ec := by
            rw [mg_eq, freshChild_Handlers, freshChild_children]
            rfl
          rw [ih ec (P5.freshChild part ch ((u.priority + 1) % 4294967296)) hs hecok
            (freshChild_okN _ _ _), hmgchild]
        | none =>
          have hf2X : gatedSplit
              (P5.mergeChildren (updH t u.Handlers) u.children).indices
              (P5.mergeChildren (updH t u.Handlers) u.children).children
              (P5.insertParts
                (P5.freshChild part ch ((u.priority + 1) % 4294967296)) rest hs).path
              = none := by
            rw [hXp]; exact hf2
          rw [mc_cons_none _ _ _ hf2X, mc_nil, hXp, hM0,
            ip_cons_none _ _ _ _ _ _ hdata hf2]
          simp only [scrub_withChildren, scrub_refreshMax, scrub_withIndices,
            withChildren_withChildren, scrubL_append, scrubL_cons, scrubL_nil]
          have hidx : (P5.mergeChildren (updH t u.Handlers) u.children).indices
                ++ part.take 1
              = (P5.mergeChildren (updH t u.Handlers) u.children).indices.push ch := by
            apply String.ext
            simp [String.data_append, String.data_take, hdata, String.data_push]
          rw [hidx, ip_scrub_congr rest
            (P5.freshChild part ch ((u.priority + 1) % 4294967296))
            (P5.freshChild part ch
              (((P5.mergeChildren (updH t u.Handlers) u.children).priority + 1)
                % 4294967296))
            hs (freshChild_scrub _ _ _ _)]

/-- Register a list of (path, chain) routes in order on a tree, as
repeated `Insert` calls. -/
def insertList (l : List (String × List Nat)) (t : routeNode) : routeNode :=
  l.foldl (fun acc e => P5.Insert acc e.1 e.2) t

theorem insertList_nil (t : routeNode) : insertList [] t = t := rfl

theorem insertList_cons (e : String × List Nat) (l : List (String × List Nat))
    (t : routeNode) :
    insertList (e :: l) t = insertList l (P5.Insert t e.1 e.2) := rfl

theorem insertList_append (a b : List (String × List Nat)) (t : routeNode) :
    insertList (a ++ b) t = insertList b (insertList a t) :=
  List.foldl_append _ _ _ _

theorem okN_NewTire : okN P5.NewTire := fresh_ok _ _ _ _ _ _ _ _

theorem insert_okN (r : routeNode) (p : String) (hs : List Nat) (h : okN r) :
    okN (P5.Insert r p hs) := by
  rw [P5.Insert]
  split
  · exact h
  · exact insertPartsP5_ok _ _ _ h

theorem insertList_okN (l : List (String × List Nat)) :
    ∀ t, okN t → okN (insertList l t) := by
  induction l with
  | nil => intro t h; exact h
  | cons e rest ih =>
    intro t h
    rw [insertList_cons]
    exact ih _ (insert_okN _ _ _ h)

theorem insert_scrub_congr (p : String) (hs : List Nat) (a b : routeNode)
    (h : scrub a = scrub b) :
    scrub (P5.Insert a p hs) = scrub (P5.Insert b p hs) := by
  rw [P5.Insert, P5.Insert]
  by_cases hp : p.length = 0
  · rw [if_pos hp, if_pos hp]
    exact h
  · rw [if_neg hp, if_neg hp]
    exact ip_scrub_congr _ _ _ _ h

theorem insertList_scrub_congr (l : List (String × List Nat)) :
    ∀ (a b : routeNode), scrub a = scrub b →
    scrub (insertList l a) = scrub (insertList l b) := by
  induction l with
  | nil => intro a b h; exact h
  | cons e rest ih =>
    intro a b h
    rw [insertList_cons, insertList_cons]
    exact ih _ _ (insert_scrub_congr _ _ _ _ h)

theorem merge_insertList (l : List (String × List Nat)) :
    ∀ t, okN t →
    scrub (P5.mergeRouteNodes t (insertList l P5.NewTire))
      = scrub (insertList l t) := by
  induction l using List.reverseRecOn with
  | nil => intro t _; rfl
  | append_singleton l e ih =>
    intro t hot
    rw [insertList_append, insertList_append, insertList_cons, insertList_cons,
      insertList_nil, insertList_nil]
    rw [P5.Insert, P5.Insert]
    by_cases hp : e.1.length = 0
    · rw [if_pos hp, if_pos hp]
      exact ih t hot
    · rw [if_neg hp, if_neg hp]
      rw [merge_insert_comm (splitPath e.1) t (insertList l P5.NewTire) e.2 hot
        (insertList_okN l _ okN_NewTire)]
      exact ip_scrub_congr _ _ _ _ (ih t hot)

theorem find?_scrub (p : routeNode → Bool) (hp : ∀ x, p (scrub x) = p x) :
    ∀ (l l' : List routeNode), scrubL l = scrubL l' →
    (l.find? p).map scrub = (l'.find? p).map scrub := by
  intro l
  induction l with
  | nil =>
    intro l' h
    cases l' with
    | nil => rfl
    | cons d ds => simp at h
  | cons c cs ih =>
    intro l' h
    cases l' with
    | nil => simp at h
    | cons d ds =>
      simp only [scrubL_cons, List.cons.injEq] at h
      have hpc : p c = p d := by rw [← hp c, ← hp d, h.1]
      by_cases hc : p c
      · rw [List.find?_cons_of_pos _ hc,
          List.find?_cons_of_pos _ (by rw [← hpc]; exact hc)]
        simp [h.1]
      · rw [List.find?_cons_of_neg _ hc,
          List.find?_cons_of_neg _ (by rw [← hpc]; exact hc)]
        exact ih ds h.2

theorem isEmpty_scrubL (l l' : List routeNode) (h : scrubL l = scrubL l') :
    l.isEmpty = l'.isEmpty := by
  cases l with
  | nil => cases l' with | nil => rfl | cons d ds => simp at h
  | cons c cs => cases l' with | nil => simp at h | cons d ds => rfl

theorem findLoop_scrub (parts : List String) :
    ∀ (a b : routeNode) (ps : List (String × String)), scrub a = scrub b →
    (P5.findLoop a parts ps).map (fun r => (scrub r.1, r.2))
      = (P5.findLoop b parts ps).map (fun r => (scrub r.1, r.2)) := by
  induction parts with
  | nil =>
    intro a b ps h
    rw [P5.findLoop, P5.findLoop]
    simp [h]
  | cons part rest ih =>
    intro a b ps h
    have hind : a.indices = b.indices := by
      rw [← scrub_indices a, ← scrub_indices b, h]
    have hch : scrubL a.children = scrubL b.children := by
      rw [← scrub_children a, ← scrub_children b, h]
    rw [P5.findLoop, P5.findLoop]
    by_cases hpe : part = ""
    · rw [if_pos hpe, if_pos hpe]
      exact ih a b ps h
    · rw [if_neg hpe, if_neg hpe]
      have hemp : a.children.isEmpty = b.children.isEmpty := isEmpty_scrubL _ _ hch
      by_cases he : a.children.isEmpty = true
      · rw [if_pos he, if_pos (by rw [← hemp]; exact he)]
      · rw [if_neg he, if_neg (by rw [← hemp]; exact he)]
        rcases hpd : part.data with _ | ⟨ch, cs⟩
        · exact absurd (string_eq_of_data _ _ (by rw [hpd])) hpe
        dsimp only
        by_cases hgate : containsChar a.indices ch
        · rw [if_pos hgate, if_pos (show containsChar b.indices ch = true by
            rw [← hind]; exact hgate)]
          have hfS := find?_scrub
            (fun c : routeNode => c.path.take 1 == String.mk [ch] && c.path == part)
            (by intro x; simp) a.children b.children hch
          cases hfa : a.children.find?
              (fun c : routeNode =>
                c.path.take 1 == String.mk [ch] && c.path == part) with
          | some c =>
            rw [hfa] at hfS
            cases hfb : b.children.find?
                (fun c : routeNode =>
                  c.path.take 1 == String.mk [ch] && c.path == part) with
            | none => rw [hfb] at hfS; simp at hfS
            | some d =>
              rw [hfb] at hfS
              simp only [Option.map_some', Option.some.injEq] at hfS
              exact ih c d ps hfS
          | none =>
            rw [hfa] at hfS
            cases hfb : b.children.find?
                (fun c : routeNode =>
                  c.path.take 1 == String.mk [ch] && c.path == part) with
            | some d => rw [hfb] at hfS; simp at hfS
            | none =>
              dsimp only
              have hfP := find?_scrub (fun c : routeNode => c.nType == nodeType.param)
                (by intro x; simp) a.children b.children hch
              cases hpa : a.children.find?
                  (fun c : routeNode => c.nType == nodeType.param) with
              | some c =>
                rw [hpa] at hfP
                cases hpb : b.children.find?
                    (fun c : routeNode => c.nType == nodeType.param) with
                | none => rw [hpb] at hfP; simp at hfP
                | some d =>
                  rw [hpb] at hfP
                  simp only [Option.map_some', Option.some.injEq] at hfP
                  dsimp only
                  have hpn : c.paramName = d.paramName := by
                    rw [← scrub_paramName c, ← scrub_paramName d, hfP]
                  rw [hpn]
                  exact ih c d _ hfP
              | none =>
                rw [hpa] at hfP
                cases hpb : b.children.find?
                    (fun c : routeNode => c.nType == nodeType.param) with
                | some d => rw [hpb] at hfP; simp at hfP
                | none =>
                  dsimp only
                  have hfC := find?_scrub
                    (fun c : routeNode =>
                      c.nType == nodeType.catchAll && c.wildChild)
                    (by intro x; simp) a.children b.children hch
                  cases hca : a.children.find?
                      (fun c : routeNode =>
                        c.nType == nodeType.catchAll && c.wildChild) with
                  | some c =>
                    rw [hca] at hfC
                    cases hcb : b.children.find?
                        (fun c : routeNode =>
                          c.nType == nodeType.catchAll && c.wildChild) with
                    | none => rw [hcb] at hfC; simp at hfC
                    | some d =>
                      rw [hcb] at hfC
                      simp only [Option.map_some', Option.some.injEq] at hfC
                      dsimp only
                      have hpn : c.paramName = d.paramName := by
                        rw [← scrub_paramName c, ← scrub_paramName d, hfC]
                      rw [hpn]
                      exact ih c d _ hfC
                  | none =>
                    rw [hca] at hfC
                    cases hcb : b.children.find?
                        (fun c : routeNode =>
                          c.nType == nodeType.catchAll && c.wildChild) with
                    | some d => rw [hcb] at hfC; simp at hfC
                    | none => rfl
        · rw [if_neg hgate, if_neg (show ¬containsChar b.indices ch = true by
            rw [← hind]; exact hgate)]
          dsimp only
          have hfP := find?_scrub (fun c : routeNode => c.nType == nodeType.param)
            (by intro x; simp) a.children b.children hch
          cases hpa : a.children.find?
              (fun c : routeNode => c.nType == nodeType.param) with
          | some c =>
            rw [hpa] at hfP
            cases hpb : b.children.find?
                (fun c : routeNode => c.nType == nodeType.param) with
            | none => rw [hpb] at hfP; simp at hfP
            | some d =>
              rw [hpb] at hfP
              simp only [Option.map_some', Option.some.injEq] at hfP
              dsimp only
              have hpn : c.paramName = d.paramName := by
                rw [← scrub_paramName c, ← scrub_paramName d, hfP]
              rw [hpn]
              exact ih c d _ hfP
          | none =>
            rw [hpa] at hfP
            cases hpb : b.children.find?
                (fun c : routeNode => c.nType == nodeType.param) with
            | some d => rw [hpb] at hfP; simp at hfP
            | none =>
              dsimp only
              have hfC := find?_scrub
                (fun c : routeNode => c.nType == nodeType.catchAll && c.wildChild)
                (by intro x; simp) a.children b.children hch
              cases hca : a.children.find?
                  (fun c : routeNode =>
                    c.nType == nodeType.catchAll && c.wildChild) with
              | some c =>
                rw [hca] at hfC
                cases hcb : b.children.find?
                    (fun c : routeNode =>
                      c.nType == nodeType.catchAll && c.wildChild) with
                | none => rw [hcb] at hfC; simp at hfC
                | some d =>
                  rw [hcb] at hfC
                  simp only [Option.map_some', Option.some.injEq] at hfC
                  dsimp only
                  have hpn : c.paramName = d.paramName := by
                    rw [← scrub_paramName c, ← scrub_paramName d, hfC]
                  rw [hpn]
                  exact ih c d _ hfC
              | none =>
                rw [hca] at hfC
                cases hcb : b.children.find?
                    (fun c : routeNode =>
                      c.nType == nodeType.catchAll && c.wildChild) with
                | some d => rw [hcb] at hfC; simp at hfC
                | none => rfl

/-- `Router.addRoute` of `part_005` over the association-list model of
the per-method map: `getRoute` fetches the method's tree (a fresh
`NewTire` when absent), `Insert`s the path, and stores the tree back. -/
def addRoute (m : List (String × routeNode)) (path method : String)
    (hs : List Nat) : List (String × routeNode) :=
  mapPutN m method
    (P5.Insert (match mapGetN m method with
                | some t => t
                | none => P5.NewTire) path hs)

/-- A router built from scratch by a sequence of registrations
(method, path, chain), as `addRoute` calls on an empty method map. -/
def buildRouter (regs : List (String × String × List Nat)) :
    List (String × routeNode) :=
  regs.foldl (fun m e => addRoute m e.2.1 e.1 e.2.2) []

/-- The (path, chain) registrations of one method, in order. -/
def sel (regs : List (String × String × List Nat)) (method : String) :
    List (String × List Nat) :=
  (regs.filter (fun e => e.1 == method)).map (fun e => (e.2.1, e.2.2))

theorem mapGetN_nil (k : String) : mapGetN [] k = none := rfl

theorem mapGetN_cons (k' : String) (v' : routeNode)
    (rest : List (String × routeNode)) (k : String) :
    mapGetN ((k', v') :: rest) k
      = if k' = k then some v' else mapGetN rest k := by
  rw [mapGetN, mapGetN]
  by_cases hk : k' = k
  · rw [if_pos hk, List.find?_cons_of_pos _ (by simp [hk])]
    rfl
  · rw [if_neg hk, List.find?_cons_of_neg _ (by simp [hk])]

theorem mapGetN_mapPutN_self (m : List (String × routeNode)) (k : String)
    (v : routeNode) : mapGetN (mapPutN m k v) k = some v := by
  induction m with
  | nil => simp [mapPutN, mapGetN]
  | cons e rest ih =>
    obtain ⟨k', v'⟩ := e
    rw [mapPutN]
    by_cases hk : k' = k
    · rw [if_pos hk, mapGetN_cons, if_pos rfl]
    · rw [if_neg hk, mapGetN_cons, if_neg hk]
      exact ih

theorem mapGetN_mapPutN_ne (m : List (String × routeNode)) (k : String)
    (v : routeNode) (k' : String) (h : k ≠ k') :
    mapGetN (mapPutN m k v) k' = mapGetN m k' := by
  induction m with
  | nil => rw [mapPutN, mapGetN_cons, if_neg h]
  | cons e rest ih =>
    obtain ⟨k1, v1⟩ := e
    rw [mapPutN]
    by_cases hk : k1 = k
    · subst hk
      rw [if_pos rfl, mapGetN_cons, mapGetN_cons]
      by_cases h2 : k1 = k'
      · exact absurd h2 h
      · rw [if_neg h2, if_neg h2]
    · rw [if_neg hk, mapGetN_cons, mapGetN_cons]
      by_cases h2 : k1 = k'
      · rw [if_pos h2, if_pos h2]
      · rw [if_neg h2, if_neg h2]
        exact ih

theorem mapGetN_eq_none (m : List (String × routeNode)) (k : String)
    (h : k ∉ m.map Prod.fst) : mapGetN m k = none := by
  induction m with
  | nil => rfl
  | cons e rest ih =>
    obtain ⟨k', v'⟩ := e
    rw [mapGetN_cons]
    simp only [List.map_cons, List.mem_cons] at h
    rw [if_neg (fun he => h (Or.inl he.symm))]
    exact ih (fun hm => h (Or.inr hm))

theorem mem_keys_mapPutN (m : List (String × routeNode)) (k : String)
    (v : routeNode) (x : String) (h : x ∈ (mapPutN m k v).map Prod.fst) :
    x ∈ m.map Prod.fst ∨ x = k := by
  induction m with
  | nil => simp [mapPutN] at h; exact Or.inr h
  | cons e rest ih =>
    obtain ⟨k', v'⟩ := e
    rw [mapPutN] at h
    by_cases hk : k' = k
    · rw [if_pos hk] at h
      simp only [List.map_cons, List.mem_cons] at h ⊢
      rcases h with h | h
      · exact Or.inr h
      · exact Or.inl (Or.inr h)
    · rw [if_neg hk] at h
      simp only [List.map_cons, List.mem_cons] at h ⊢
      rcases h with h | h
      · exact Or.inl (Or.inl h)
      · rcases ih h with h' | h'
        · exact Or.inl (Or.inr h')
        · exact Or.inr h'

theorem nodup_keys_mapPutN (m : List (String × routeNode)) (k : String)
    (v : routeNode) (h : (m.map Prod.fst).Nodup) :
    ((mapPutN m k v).map Prod.fst).Nodup := by
  induction m with
  | nil => simp [mapPutN]
  | cons e rest ih =>
    obtain ⟨k', v'⟩ := e
    simp only [List.map_cons, List.nodup_cons] at h
    rw [mapPutN]
    by_cases hk : k' = k
    · rw [if_pos hk]
      simp only [List.map_cons, List.nodup_cons]
      exact ⟨by rw [← hk]; exact h.1, h.2⟩
    · rw [if_neg hk]
      simp only [List.map_cons, List.nodup_cons]
      refine ⟨?_, ih h.2⟩
      intro hmem
      rcases mem_keys_mapPutN rest k v k' hmem with h' | h'
      · exact h.1 h'
      · exact hk h'

theorem nodup_keys_buildFrom (regs : List (String × String × List Nat)) :
    ∀ (m : List (String × routeNode)), (m.map Prod.fst).Nodup →
    ((regs.foldl (fun m e => addRoute m e.2.1 e.1 e.2.2) m).map Prod.fst).Nodup := by
  induction regs with
  | nil => intro m h; exact h
  | cons e rest ih =>
    intro m h
    rw [List.foldl_cons]
    exact ih _ (nodup_keys_mapPutN _ _ _ h)

theorem nodup_keys_buildRouter (regs : List (String × String × List Nat)) :
    ((buildRouter regs).map Prod.fst).Nodup :=
  nodup_keys_buildFrom regs [] (by simp)

theorem mergeRouter_cons (r : List (String × routeNode))
    (e : String × routeNode) (rest : List (String × routeNode)) :
    P5.MergeRouter r (e :: rest)
      = P5.MergeRouter
          (match mapGetN r e.1 with
           | some ex => mapPutN r e.1 (P5.mergeRouteNodes ex e.2)
           | none => mapPutN r e.1 e.2) rest := rfl

theorem mergeRouter_get (other : List (String × routeNode)) :
    ∀ (r : List (String × routeNode)) (method : String),
    ((other.map Prod.fst).Nodup) →
    mapGetN (P5.MergeRouter r other) method
      = match mapGetN other method, mapGetN r method with
        | none, x => x
        | some ot, none => some ot
        | some ot, some rt => some (P5.mergeRouteNodes rt ot) := by
  induction other with
  | nil => intro r method _; rfl
  | cons e rest ih =>
    intro r method hnd
    obtain ⟨k, tnode⟩ := e
    simp only [List.map_cons, List.nodup_cons] at hnd
    rw [mergeRouter_cons, ih _ method hnd.2, mapGetN_cons]
    by_cases hm : k = method
    · subst hm
      rw [if_pos rfl, mapGetN_eq_none rest k hnd.1]
      cases hg : mapGetN r k with
      | some ex =>
        dsimp only
        rw [mapGetN_mapPutN_self]
      | none =>
        dsimp only
        rw [mapGetN_mapPutN_self]
    · rw [if_neg hm]
      have hput : mapGetN
          (match mapGetN r k with
           | some ex => mapPutN r k (P5.mergeRouteNodes ex tnode)
           | none => mapPutN r k tnode) method = mapGetN r method := by
        cases hg : mapGetN r k with
        | some ex =>
          dsimp only
          exact mapGetN_mapPutN_ne _ _ _ _ hm
        | none =>
          dsimp only
          exact mapGetN_mapPutN_ne _ _ _ _ hm
      rw [hput]

theorem buildFrom_get (regs : List (String × String × List Nat)) :
    ∀ (m : List (String × routeNode)) (method : String),
    mapGetN (regs.foldl (fun m e => addRoute m e.2.1 e.1 e.2.2) m) method
      = match mapGetN m method with
        | some t => some (insertList (sel regs method) t)
        | none =>
            if sel regs method = [] then none
            else some (insertList (sel regs method) P5.NewTire) := by
  induction regs with
  | nil =>
    intro m method
    rw [List.foldl_nil]
    cases hg : mapGetN m method with
    | some t => rfl
    | none => simp [sel, insertList]
  | cons e rest ih =>
    intro m method
    obtain ⟨mth, pth, hs⟩ := e
    rw [List.foldl_cons, ih (addRoute m pth mth hs) method]
    by_cases hm : mth = method
    · subst hm
      have hsel : sel ((mth, pth, hs) :: rest) mth = (pth, hs) :: sel rest mth := by
        rw [sel, sel, List.filter_cons_of_pos (by simp), List.map_cons]
      rw [hsel]
      rw [show mapGetN (addRoute m pth mth hs) mth
          = some (P5.Insert (match mapGetN m mth with
                             | some t => t
                             | none => P5.NewTire) pth hs) from by
        rw [addRoute]; exact mapGetN_mapPutN_self _ _ _]
      cases hg : mapGetN m mth with
      | some t =>
        dsimp only
        rw [insertList_cons]
      | none =>
        dsimp only
        rw [insertList_cons, if_neg (by simp)]
    · have hsel : sel ((mth, pth, hs) :: rest) method = sel rest method := by
        rw [sel, sel, List.filter_cons_of_neg (by simp [hm])]
      rw [hsel]
      rw [show mapGetN (addRoute m pth mth hs) method = mapGetN m method from by
        rw [addRoute]; exact mapGetN_mapPutN_ne _ _ _ _ hm]

theorem buildRouter_get (regs : List (String × String × List Nat))
    (method : String) :
    mapGetN (buildRouter regs) method
      = if sel regs method = [] then none
        else some (insertList (sel regs method) P5.NewTire) := by
  rw [buildRouter, buildFrom_get regs [] method]
  rfl

theorem FindChild_scrub (a b : routeNode) (h : scrub a = scrub b)
    (path : String) :
    (P5.FindChild a path).map (fun r => (r.1.Handlers, r.2))
      = (P5.FindChild b path).map (fun r => (r.1.Handlers, r.2)) := by
  rw [P5.FindChild, P5.FindChild]
  by_cases hp : path = ""
  · rw [if_pos hp, if_pos hp]
  · rw [if_neg hp, if_neg hp]
    have hfl := findLoop_scrub (splitPath path) a b [] h
    cases hfa : P5.findLoop a (splitPath path) [] with
    | none =>
      rw [hfa] at hfl
      cases hfb : P5.findLoop b (splitPath path) [] with
      | none => rfl
      | some v => rw [hfb] at hfl; simp at hfl
    | some v =>
      obtain ⟨n, ps⟩ := v
      rw [hfa] at hfl
      cases hfb : P5.findLoop b (splitPath path) [] with
      | none => rw [hfb] at hfl; simp at hfl
      | some w =>
        obtain ⟨n', ps'⟩ := w
        rw [hfb] at hfl
        simp only [Option.map_some', Option.some.injEq, Prod.mk.injEq] at hfl
        simp only [Option.map_some', Option.some.injEq, Prod.mk.injEq]
        exact ⟨by rw [← scrub_Handlers n, ← scrub_Handlers n', hfl.1], hfl.2⟩

/-- C6: for every pair of routers — B built from registrations `regsB`
and A from `regsA` — after `MergeRouter`(A into B), matching any
method and path on the merged router yields the same handler chain and
the same bound parameters as a single router on which all of B's and
then all of A's routes were registered directly; in particular on a
path registered in both, the merged-in (A) side's chain wins, since
its registrations are applied last in the direct router. -/
theorem c6_mergeRouter_match_equiv
    (regsB regsA : List (String × String × List Nat))
    (method path : String) :
    (match mapGetN (P5.MergeRouter (buildRouter regsB) (buildRouter regsA))
        method with
     | some t => (P5.FindChild t path).map
         (fun r : routeNode × List (String × String) => (r.1.Handlers, r.2))
     | none => none)
    = (match mapGetN (buildRouter (regsB ++ regsA)) method with
       | some t => (P5.FindChild t path).map
         (fun r : routeNode × List (String × String) => (r.1.Handlers, r.2))
       | none => none) := by
  rw [mergeRouter_get (buildRouter regsA) (buildRouter regsB) method
    (nodup_keys_buildRouter regsA)]
  rw [buildRouter_get regsA method, buildRouter_get regsB method,
    buildRouter_get (regsB ++ regsA) method]
  have hselapp : sel (regsB ++ regsA) method
      = sel regsB method ++ sel regsA method := by
    rw [sel, sel, sel, List.filter_append, List.map_append]
  rw [hselapp]
  by_cases hA : sel regsA method = []
  · rw [if_pos hA, hA, List.append_nil]
  · rw [if_neg hA]
    by_cases hB : sel regsB method = []
    · rw [if_pos hB, hB, List.nil_append, if_neg hA]
    · rw [if_neg hB,
        if_neg (show ¬(sel regsB method ++ sel regsA method = []) from by
          simp [hB])]
      dsimp only
      rw [insertList_append]
      exact FindChild_scrub _ _
        (merge_insertList (sel regsA method)
          (insertList (sel regsB method) P5.NewTire)
          (insertList_okN (sel regsB method) _ okN_NewTire)) path
